import Mathlib

/-!
Verification of the structured-output extraction and continuation logic of the
AIML test generator (source files streamlit_syllabus_app.py,
pages/0_Generate_Questions.py and pages/1_Student_Test.py).

Python values decoded from model responses are modelled by the type JVal.  The
standard-library json.loads is modelled by jsonLoads, a fuel-based
recursive-descent parser for the JSON fragment the app exchanges: null,
booleans, integer numerals, strings, arrays and objects.  Deliberate
simplifications of the jsonLoads model, none of which is exercised by the
records the app handles (flat objects with string and integer fields):
fractional and exponent numerals are rejected rather than read as floats,
unicode escapes inside strings are not decoded, leading zeros in numerals are
accepted, raw control characters inside strings are accepted, and an object
with duplicate keys keeps its first occurrence rather than the last.

Python exceptions are modelled as Option: every call site of json.loads in the
source wraps it in try/except, so a raised decode error and a returned none are
observationally identical there.  The Gemini transport call is modelled as an
oracle Nat → CallResult giving the text (or the raised error) of each
successive call.
-/

namespace Syllabus

/-- JSON values as produced by the json.loads model. -/
inductive JVal : Type where
  | jnull : JVal
  | jbool : Bool → JVal
  | jnum : Int → JVal
  | jstr : String → JVal
  | jarr : List JVal → JVal
  | jobj : List (String × JVal) → JVal

/-- Whitespace accepted between JSON tokens by json.loads: space, tab, newline,
carriage return. -/
def isJsonWs (c : Char) : Bool :=
  c = ' ' || c = '\t' || c = '\n' || c = '\r'

/-- Whitespace stripped by the Python str.strip method (ASCII range), which is
also the character class of the regex escape for whitespace. -/
def isPyWs (c : Char) : Bool :=
  isJsonWs c || c = '\x0b' || c = '\x0c'

/-- Drop leading JSON whitespace. -/
def skipWs : List Char → List Char
  | [] => []
  | c :: t => if isJsonWs c then skipWs t else c :: t

/-- Model of the Python str.strip method on a character list. -/
def pyStrip (l : List Char) : List Char :=
  ((l.dropWhile isPyWs).reverse.dropWhile isPyWs).reverse

/-- Model of the Python str.strip method on strings. -/
def pyStripS (s : String) : String :=
  String.mk (pyStrip s.data)

/-- Index of the first occurrence of a character, as the Python str.find method
(none models the -1 result). -/
def pyFind (c : Char) : List Char → Option Nat
  | [] => none
  | d :: t => if d = c then some 0 else (pyFind c t).map (· + 1)

/-- Index of the last occurrence of a character, as the Python str.rfind
method. -/
def pyRFind (c : Char) (l : List Char) : Option Nat :=
  (pyFind c l.reverse).map (fun i => l.length - 1 - i)

/-- Numeric value of a decimal digit character. -/
def digitVal (c : Char) : Nat := c.toNat - 48

/-- Value of a list of decimal digit characters, most significant first. -/
def digitsVal (l : List Char) : Nat :=
  l.foldl (fun a c => 10 * a + digitVal c) 0

/-- The decimal digit character for d mod 10. -/
def digitChar (d : Nat) : Char := Char.ofNat (48 + d % 10)

/-- Decimal digit characters of a natural number, most significant first. -/
def natToDigits (n : Nat) : List Char :=
  if n < 10 then [digitChar n]
  else natToDigits (n / 10) ++ [digitChar (n % 10)]
termination_by n
decreasing_by exact Nat.div_lt_self (by omega) (by omega)

/-- Decimal characters of an integer: optional minus sign, then digits. -/
def intChars (n : Int) : List Char :=
  if n < 0 then '-' :: natToDigits n.natAbs else natToDigits n.toNat

/-- The character a simple backslash escape denotes (identity on the quote,
backslash and slash escapes; unicode escapes are not modelled). -/
def unescChar (c : Char) : Char :=
  if c = 'n' then '\n'
  else if c = 't' then '\t'
  else if c = 'r' then '\r'
  else if c = 'b' then '\x08'
  else if c = 'f' then '\x0c'
  else c

/-- Parse the body of a JSON string after its opening quote, returning the
content characters and the remainder after the closing quote. -/
def parseStrAux : List Char → Option (List Char × List Char)
  | [] => none
  | [c] => if c = '"' then some ([], []) else none
  | c :: d :: t =>
    if c = '"' then some ([], d :: t)
    else if c = '\\' then (parseStrAux t).map (fun p => (unescChar d :: p.1, p.2))
    else (parseStrAux (d :: t)).map (fun p => (c :: p.1, p.2))

/-- Split a list at the longest prefix whose characters satisfy p. -/
def spanD (p : Char → Bool) (l : List Char) : List Char × List Char :=
  (l.takeWhile p, l.dropWhile p)

/-- Parse a JSON integer numeral: optional minus sign then one or more
digits. -/
def parseNum (l : List Char) : Option (Int × List Char) :=
  match l with
  | [] => none
  | c :: r =>
    if c = '-' then
      let s := spanD Char.isDigit r
      if s.1.isEmpty then none else some (-(digitsVal s.1 : Int), s.2)
    else
      let s := spanD Char.isDigit (c :: r)
      if s.1.isEmpty then none else some ((digitsVal s.1 : Int), s.2)

/-- Consume an expected literal character sequence, returning the remainder. -/
def chopLit : List Char → List Char → Option (List Char)
  | [], l => some l
  | _ :: _, [] => none
  | p :: ps, c :: t => if c = p then chopLit ps t else none

mutual

/-- Parse one JSON value (fuel-based recursion; the callers below always supply
enough fuel for the whole input). -/
def parseVal : Nat → List Char → Option (JVal × List Char)
  | 0, _ => none
  | fuel + 1, input =>
    match skipWs input with
    | [] => none
    | c :: r =>
      if c = '"' then (parseStrAux r).map (fun p => (.jstr (String.mk p.1), p.2))
      else if c = '\x7b' then
        match skipWs r with
        | [] => none
        | d :: r2 =>
          if d = '\x7d' then some (.jobj [], r2)
          else (parseFlds fuel r).map (fun p => (.jobj p.1, p.2))
      else if c = '[' then
        match skipWs r with
        | [] => none
        | d :: r2 =>
          if d = ']' then some (.jarr [], r2)
          else (parseElems fuel r).map (fun p => (.jarr p.1, p.2))
      else
        match chopLit ['t', 'r', 'u', 'e'] (c :: r) with
        | some r2 => some (.jbool true, r2)
        | none =>
          match chopLit ['f', 'a', 'l', 's', 'e'] (c :: r) with
          | some r2 => some (.jbool false, r2)
          | none =>
            match chopLit ['n', 'u', 'l', 'l'] (c :: r) with
            | some r2 => some (.jnull, r2)
            | none => (parseNum (c :: r)).map (fun p => (.jnum p.1, p.2))

/-- Parse the elements of a nonempty JSON array after its opening bracket
(the empty array is handled in parseVal, so no trailing comma is accepted). -/
def parseElems : Nat → List Char → Option (List JVal × List Char)
  | 0, _ => none
  | fuel + 1, input =>
    match parseVal fuel input with
    | none => none
    | some (v, r) =>
      match skipWs r with
      | [] => none
      | d :: r2 =>
        if d = ',' then (parseElems fuel r2).map (fun p => (v :: p.1, p.2))
        else if d = ']' then some ([v], r2)
        else none

/-- Parse the members of a nonempty JSON object after its opening brace. -/
def parseFlds : Nat → List Char → Option (List (String × JVal) × List Char)
  | 0, _ => none
  | fuel + 1, input =>
    match skipWs input with
    | [] => none
    | d :: r =>
      if d = '"' then
        match parseStrAux r with
        | none => none
        | some (k, r1) =>
          match skipWs r1 with
          | [] => none
          | d2 :: r2 =>
            if d2 = ':' then
              match parseVal fuel r2 with
              | none => none
              | some (v, r3) =>
                match skipWs r3 with
                | [] => none
                | d3 :: r4 =>
                  if d3 = ',' then
                    (parseFlds fuel r4).map (fun p => ((String.mk k, v) :: p.1, p.2))
                  else if d3 = '\x7d' then some ([(String.mk k, v)], r4)
                  else none
            else none
      else none

end

/-- Model of json.loads: parse one value and require only whitespace after it.
A raised JSONDecodeError is modelled as none (every call site in the source
catches it). -/
def jsonLoads (s : String) : Option JVal :=
  match parseVal (s.data.length + 1) s.data with
  | some (v, rest) => if skipWs rest = [] then some v else none
  | none => none

/-- The backtick character (the code-fence delimiter). -/
def btick : Char := Char.ofNat 96

/-- Whether a triple-backtick fence marker starts at the head of the text. -/
def fenceHere : List Char → Bool
  | c1 :: c2 :: c3 :: _ => c1 = btick && c2 = btick && c3 = btick
  | _ => false

/-- Whether the text contains a triple-backtick fence marker, modelling the
Python containment test used to decide whether fence lines are stripped. -/
def hasFence : List Char → Bool
  | [] => false
  | c :: t => fenceHere (c :: t) || hasFence t

/-- Split on newline characters, as the Python str.split method with a newline
separator.  (The source uses splitlines in two places and split in one; they
agree on every text without a trailing newline or other line separators, and no
theorem below depends on the difference.) -/
def pySplitNl : List Char → List (List Char)
  | [] => [[]]
  | c :: t =>
    if c = '\n' then [] :: pySplitNl t
    else
      match pySplitNl t with
      | [] => [[c]]
      | ln :: rest => (c :: ln) :: rest

/-- Join lines with newline characters, as the Python str.join method. -/
def joinNl : List (List Char) → List Char
  | [] => []
  | [ln] => ln
  | ln :: rest => ln ++ '\n' :: joinNl rest

/-- Whether the second list starts with the first, as the Python str.startswith
method. -/
def startsWithChars : List Char → List Char → Bool
  | [], _ => true
  | _ :: _, [] => false
  | p :: ps, c :: t => c = p && startsWithChars ps t

/-- The triple-backtick fence marker. -/
def fence3 : List Char := [btick, btick, btick]

/-- Model of the fence-stripping helper of the source (named there with a
clean-fences and a strip-fences variant, both with this body): if a
triple backtick occurs anywhere, drop every line whose stripped form starts
with one. -/
def cleanFences (l : List Char) : List Char :=
  if hasFence l then
    joinNl ((pySplitNl l).filter (fun ln => !(startsWithChars fence3 (pyStrip ln))))
  else l

/-- Model of the source helper that slices from the first opening bracket to
the last closing bracket inclusive, returning the text unchanged when the
brackets are missing or inverted. -/
def extractJsonArray (l : List Char) : List Char :=
  match pyFind '[' l, pyRFind ']' l with
  | some s, some e => if s < e then (l.drop s).take (e - s + 1) else l
  | _, _ => l

/-- Whether a value is an object (the isinstance dict test of the source). -/
def isObjB : JVal → Bool
  | .jobj _ => true
  | _ => false

/-- Model of the strict direct-parse strategy of the source (the try-parse
helper): strip, drop fence lines, slice between brackets, parse strictly, and
accept only a list every element of which is an object. -/
def tryParse (raw : String) : Option (List JVal) :=
  let cand := extractJsonArray (cleanFences (pyStrip raw.data))
  match jsonLoads (String.mk cand) with
  | some (.jarr xs) => if xs.all isObjB then some xs else none
  | _ => none

/-- Replace every occurrence of one character by another, as the Python
str.replace method on single characters. -/
def pyReplaceChar (a b : Char) (l : List Char) : List Char :=
  l.map (fun c => if c = a then b else c)

/-- Model of the regex substitution of the source that deletes a comma (and
the whitespace after it) when the next non-whitespace character closes an
array or an object. -/
def rstripCommaSubGo : Nat → List Char → List Char
  | 0, l => l
  | _, [] => []
  | fuel + 1, c :: rest =>
    if c = ',' then
      match rest.dropWhile isPyWs with
      | b :: r2 =>
        if b = ']' ∨ b = '\x7d' then b :: rstripCommaSubGo fuel r2
        else c :: rstripCommaSubGo fuel rest
      | [] => c :: rest
    else c :: rstripCommaSubGo fuel rest

/-- Model of the regex substitution of the source that deletes a comma (and
the whitespace after it) when the next non-whitespace character closes an
array or an object.  The fuel argument of the worker is only a structural
termination device: the list length always suffices, since each step consumes
at least one character. -/
def rstripCommaSub (l : List Char) : List Char :=
  rstripCommaSubGo l.length l

/-- Model of the repair helper of the source: strip, drop fence lines, slice
between brackets, switch single quotes to double quotes when they dominate,
delete trailing commas, and wrap a bare object into a one-element array. -/
def repairJsonCandidate (raw : String) : String :=
  let txt := cleanFences (pyStrip raw.data)
  let arr := extractJsonArray txt
  let arr :=
    if arr.count '"' < arr.count '\x27' then pyReplaceChar '\x27' '"' arr else arr
  let arr := pyStrip (rstripCommaSub arr)
  let arr :=
    if arr.head? = some '\x7b' ∧ arr.getLast? = some '\x7d' then '[' :: arr ++ [']']
    else arr
  String.mk arr

/-- Remove all trailing commas, as the Python str.rstrip method with a comma
argument. -/
def rstripCommas (l : List Char) : List Char :=
  (l.reverse.dropWhile (· = ',')).reverse

/-- One character step of the incremental brace scan of
streamlit_syllabus_app.py: the state is the brace level, the accumulated
buffer, and the objects recovered so far.  When the level returns to zero the
stripped buffer is parsed; on success the buffer is reset (whether or not the
value was an object), on failure it keeps accumulating. -/
def ppoStep (st : Int × List Char × List JVal) (ch : Char) : Int × List Char × List JVal :=
  let lvl := st.1
  let buf := st.2.1 ++ [ch]
  let objs := st.2.2
  if ch = '\x7b' then (lvl + 1, buf, objs)
  else if ch = '\x7d' then
    let lvl2 := lvl - 1
    if lvl2 = 0 then
      match jsonLoads (String.mk (rstripCommas (pyStrip buf))) with
      | some v => (lvl2, [], if isObjB v then objs ++ [v] else objs)
      | none => (lvl2, buf, objs)
    else (lvl2, buf, objs)
  else (lvl, buf, objs)

/-- Model of the incremental partial-object scan of streamlit_syllabus_app.py:
strip, drop fence lines, discard one leading opening bracket, then fold the
brace scan over the characters. -/
def parsePartialObjects (raw : String) : List JVal :=
  let txt := cleanFences (pyStrip raw.data)
  let txt := match txt with
    | '[' :: t => t
    | other => other
  (txt.foldl ppoStep (0, [], [])).2.2

/-- One character step of the scan variant of pages/0_Generate_Questions.py:
identical except that the buffer is reset only when the parsed value is an
object. -/
def ppoStepGen (st : Int × List Char × List JVal) (ch : Char) : Int × List Char × List JVal :=
  let lvl := st.1
  let buf := st.2.1 ++ [ch]
  let objs := st.2.2
  if ch = '\x7b' then (lvl + 1, buf, objs)
  else if ch = '\x7d' then
    let lvl2 := lvl - 1
    if lvl2 = 0 then
      match jsonLoads (String.mk (rstripCommas (pyStrip buf))) with
      | some v => if isObjB v then (lvl2, [], objs ++ [v]) else (lvl2, buf, objs)
      | none => (lvl2, buf, objs)
    else (lvl2, buf, objs)
  else (lvl, buf, objs)

/-- Model of the partial-object scan of pages/0_Generate_Questions.py. -/
def partialObjectsGen (raw : String) : List JVal :=
  let txt := cleanFences (pyStrip raw.data)
  let txt := match txt with
    | '[' :: t => t
    | other => other
  (txt.foldl ppoStepGen (0, [], [])).2.2

/-- Look up a key in an object, as the Python dict.get method (fields decoded
by jsonLoads have distinct keys, so first match equals last match there). -/
def lookupField : List (String × JVal) → String → Option JVal
  | [], _ => none
  | (k, v) :: t, key => if k = key then some v else lookupField t key

/-- The contribution of one recovered record to the used-marks sum of the
continuation budget: its marks field when numeric (a Python bool is an int, so
it counts as 0 or 1), otherwise 0 — a record whose marks value is not numeric
is filtered out of the sum, and a missing key defaults to 0, which is the same
contribution. -/
def markValue : JVal → Int
  | .jobj fs =>
    match lookupField fs "marks" with
    | some (.jnum n) => n
    | some (.jbool b) => if b then 1 else 0
    | _ => 0
  | _ => 0

/-- Sum of the marks of a list of recovered records. -/
def usedMarks (l : List JVal) : Int :=
  (l.map markValue).sum

/-- Outcome of one transport call to the generative model: the response text,
or the message of the raised transport error. -/
inductive CallResult : Type where
  | ok : String → CallResult
  | err : String → CallResult

/-- Observable outcome of one run of the generation controller: the returned
value (none models the Python None), how many transport calls were made, the
continuation requests issued (new-record count and mark budget of each), and
the error surfaced to the user, if any. -/
structure ApiRun where
  result : Option (List JVal)
  callsMade : Nat
  contReqs : List (Nat × Int)
  surfacedError : Option String

/-- The Python len builtin on a decoded value: defined for strings, arrays and
objects; none models the TypeError raised on the other types. -/
def pyLen : JVal → Option Nat
  | .jstr s => some s.length
  | .jarr xs => some xs.length
  | .jobj fs => some fs.length
  | _ => none

/-- The partial-recovery block of one attempt of call_gemini_api
(streamlit_syllabus_app.py lines 274 to 312), reached when the strict parse
and the repaired parse fell short: scan the raw text for complete objects; if
at least one but fewer than expected were recovered, issue one continuation
request whose budget is the larger of the leftover marks and the leftover
record count, extract the new records from the continuation response, and
combine; if the scan recovered exactly the expected count, return it.  The
left summand of the result ends the attempt loop with that outcome; the right
summand falls through to the next attempt with the next call index and the
continuation requests issued so far. -/
def partialRecoveryStep (oracle : Nat → CallResult) (expected : Nat) (totalMarks : Int)
    (raw : String) (idx : Nat) (conts : List (Nat × Int)) :
    Sum ApiRun (Nat × List (Nat × Int)) :=
  let recov := parsePartialObjects raw
  if recov.isEmpty = false ∧ recov.length < expected then
    let used := usedMarks recov
    let remainCount := expected - recov.length
    let remainMarks := max (totalMarks - used) (remainCount : Int)
    let conts2 := conts ++ [(remainCount, remainMarks)]
    match oracle (idx + 1) with
    | .err e => .inl ⟨none, idx + 2, conts2, some e⟩
    | .ok craw =>
      let newItems :=
        match tryParse craw with
        | some l => l
        | none => parsePartialObjects craw
      if newItems.isEmpty = false then
        let combined := recov ++ newItems
        if expected ≤ combined.length then
          .inl ⟨some (combined.take expected), idx + 2, conts2, none⟩
        else if recov.length < combined.length then
          .inl ⟨some combined, idx + 2, conts2, none⟩
        else .inr (idx + 2, conts2)
      else .inr (idx + 2, conts2)
  else if recov.isEmpty = false ∧ recov.length = expected then
    .inl ⟨some recov, idx + 1, conts, none⟩
  else .inr (idx + 1, conts)

/-- The attempt loop of call_gemini_api (streamlit_syllabus_app.py lines 251
to 322), with the remaining attempt count as fuel.  Each attempt: call the
model (a raised transport error ends the loop at once with the error surfaced
and a None result); try the strict parse and return on an exact count match;
if the strict parse failed, parse the repaired candidate and return a decoded
list on an exact count match — a decoded non-list value makes the later len
test raise a TypeError, which the outer except turns into an aborted loop;
otherwise, when the decoded value is missing or shorter than expected, run the
partial-recovery block; exhausted fuel is the exhausted retry budget. -/
def callGeminiGo (oracle : Nat → CallResult) (expected : Nat) (totalMarks : Int) :
    Nat → Nat → List (Nat × Int) → ApiRun
  | 0, idx, conts => ⟨none, idx, conts, none⟩
  | fuel + 1, idx, conts =>
    match oracle idx with
    | .err e => ⟨none, idx + 1, conts, some e⟩
    | .ok raw =>
      match tryParse raw with
      | some l =>
        if l.length = expected then ⟨some l, idx + 1, conts, none⟩
        else if l.length < expected then
          match partialRecoveryStep oracle expected totalMarks raw idx conts with
          | .inl out => out
          | .inr (idx2, conts2) => callGeminiGo oracle expected totalMarks fuel idx2 conts2
        else callGeminiGo oracle expected totalMarks fuel (idx + 1) conts
      | none =>
        match jsonLoads (repairJsonCandidate raw) with
        | some (.jarr xs) =>
          if xs.length = expected then ⟨some xs, idx + 1, conts, none⟩
          else if xs.length < expected then
            match partialRecoveryStep oracle expected totalMarks raw idx conts with
            | .inl out => out
            | .inr (idx2, conts2) => callGeminiGo oracle expected totalMarks fuel idx2 conts2
          else callGeminiGo oracle expected totalMarks fuel (idx + 1) conts
        | some v =>
          match pyLen v with
          | none => ⟨none, idx + 1, conts, some "TypeError: object has no len"⟩
          | some n =>
            if n < expected then
              match partialRecoveryStep oracle expected totalMarks raw idx conts with
              | .inl out => out
              | .inr (idx2, conts2) => callGeminiGo oracle expected totalMarks fuel idx2 conts2
            else callGeminiGo oracle expected totalMarks fuel (idx + 1) conts
        | none =>
          match partialRecoveryStep oracle expected totalMarks raw idx conts with
          | .inl out => out
          | .inr (idx2, conts2) => callGeminiGo oracle expected totalMarks fuel idx2 conts2

/-- Model of call_gemini_api: run the attempt loop with retries plus one
attempts, counting transport calls from zero. -/
def call_gemini_api (oracle : Nat → CallResult) (expected_count : Nat)
    (total_marks : Int) (retries : Nat) : ApiRun :=
  callGeminiGo oracle expected_count total_marks (retries + 1) 0 []

/-- Model of the Python float builtin on a numeral string (after the strip the
builtin performs): optional sign, digits with an optional decimal point.
Exponent forms and the infinity and nan words are not modelled; none models
the raised ValueError. -/
def parseFloatChars (l : List Char) : Option ℚ :=
  let signed : Bool × List Char :=
    match l with
    | '-' :: r => (true, r)
    | '+' :: r => (false, r)
    | other => (false, other)
  let d1 := spanD Char.isDigit signed.2
  let d2 :=
    match d1.2 with
    | '.' :: r => spanD Char.isDigit r
    | other => ([], other)
  if (d1.1.isEmpty && d2.1.isEmpty) || !d2.2.isEmpty then none
  else
    let mag : ℚ := (digitsVal d1.1 : ℚ) + (digitsVal d2.1 : ℚ) / 10 ^ d2.1.length
    some (if signed.1 then -mag else mag)

/-- The Python float builtin on a decoded value: numbers convert exactly,
bools to 0 or 1, numeral strings via parseFloatChars; none models the
TypeError or ValueError raised on everything else. -/
def pyFloat : JVal → Option ℚ
  | .jnum n => some (n : ℚ)
  | .jbool b => some (if b then 1 else 0)
  | .jstr s => parseFloatChars (pyStrip s.data)
  | _ => none

/-- The clamp applied to every AI-awarded mark (pages/1_Student_Test.py lines
277 and 288): the model value is forced into the closed interval from 0 to the
maximum marks of the question. -/
def clampMarks (m maxMarks : ℚ) : ℚ :=
  min (max 0 m) maxMarks

/-- Consume an expected literal (given in lowercase), compared case
insensitively, returning the remainder. -/
def chopLitCI : List Char → List Char → Option (List Char)
  | [], l => some l
  | _ :: _, [] => none
  | p :: ps, c :: t => if c.toLower = p then chopLitCI ps t else none

/-- One allowed separator character between the marks word and its number in
the fallback regex of the grader: a double quote, whitespace, or a colon. -/
def isSepCh (c : Char) : Bool :=
  c = '"' || isPyWs c || c = ':'

/-- Attempt the fallback marks regex of the grader at the start of the text:
the word marks (case insensitive), one or more separator characters, then
digits with an optional fractional part, whose numeric value is returned. -/
def matchMarksAt (l : List Char) : Option ℚ :=
  match chopLitCI ['m', 'a', 'r', 'k', 's'] l with
  | none => none
  | some r =>
    let seps := spanD isSepCh r
    if seps.1.isEmpty then none
    else
      let d1 := spanD Char.isDigit seps.2
      if d1.1.isEmpty then none
      else
        let d2 :=
          match d1.2 with
          | '.' :: r3 => (spanD Char.isDigit r3).1
          | _ => []
        some ((digitsVal d1.1 : ℚ) + (digitsVal d2 : ℚ) / 10 ^ d2.length)

/-- The regex search of the grader fallback: try the marks pattern at every
position, leftmost first. -/
def regexMarks : List Char → Option ℚ
  | [] => none
  | c :: t =>
    match matchMarksAt (c :: t) with
    | some q => some q
    | none => regexMarks t

/-- Observable outcome of grading one question: the accepted marks, the
feedback value, and whether a model call was issued for the question. -/
structure GradeOutcome where
  marks : ℚ
  feedback : JVal
  calledModel : Bool

/-- The brace-bounded slice of the grading parser (first opening brace to last
closing brace inclusive), or none when the braces are missing or inverted. -/
def braceSlice (l : List Char) : Option (List Char) :=
  match pyFind '\x7b' l, pyRFind '\x7d' l with
  | some s, some e => if s < e + 1 then some ((l.drop s).take (e + 1 - s)) else none
  | _, _ => none

/-- Model of one iteration of the AI auto-grade loop of
pages/1_Student_Test.py (lines 208 to 300) for one question: an empty or
whitespace-only student answer is scored 0 with fixed feedback and no model
call; otherwise the model is called (a raised transport error scores 0 with
the error in the feedback); the response is stripped, fence lines are dropped,
and a direct parse then a brace-bounded parse are attempted; a nonempty
decoded object yields the clamped float of its marks field (a float
conversion error scores 0 via the outer except); anything else falls back to
the marks regex, clamped on a hit and scored 0 otherwise. -/
def gradeOne (maxMarks : ℚ) (studentAnswer : String) (call : CallResult) : GradeOutcome :=
  if pyStrip studentAnswer.data = [] then
    ⟨0, .jstr "No answer provided.", false⟩
  else
    match call with
    | .err e => ⟨0, .jstr ("Grading error: " ++ e), true⟩
    | .ok t =>
      let rt := cleanFences (pyStrip t.data)
      let decoded : Option JVal :=
        match jsonLoads (String.mk rt) with
        | some v => some v
        | none =>
          match braceSlice rt with
          | some sl => jsonLoads (String.mk sl)
          | none => none
      match decoded with
      | some (.jobj (f :: fs)) =>
        match pyFloat ((lookupField (f :: fs) "marks").getD (.jnum 0)) with
        | some m =>
          ⟨clampMarks m maxMarks,
           (lookupField (f :: fs) "feedback").getD (.jstr "Graded by AI"), true⟩
        | none => ⟨0, .jstr "Grading error: could not convert marks to float", true⟩
      | _ =>
        match regexMarks rt with
        | some m => ⟨clampMarks m maxMarks, .jstr (String.mk (rt.take 150)), true⟩
        | none =>
          ⟨0, .jstr ("Unable to parse AI response. Raw: " ++ String.mk (rt.take 100)), true⟩

/-- Distinctness of the keys of an object, field by field. -/
def nodupKeys : List String → Bool
  | [] => true
  | k :: t => (!t.contains k) && nodupKeys t

/-- Characters allowed inside the strings of the record values the round-trip
statements quantify over: everything except the two quote characters, the
backslash, the backtick, brackets, braces, the comma, and line breaks — the
characters that the bracket slicing, fence stripping, quote repair, comma
repair and brace scan of the source key on.  Letters, digits, spaces, tabs and
all punctuation outside that set are allowed. -/
def safeChar (c : Char) : Bool :=
  !(c = '"' || c = '\x27' || c = '\\' || c = btick || c = '[' || c = ']' ||
    c = '\x7b' || c = '\x7d' || c = ',' || c = '\n' || c = '\r')

/-- A string all of whose characters are safe. -/
def safeStr (s : String) : Bool := s.data.all safeChar

mutual

/-- Values whose strings are safe and whose objects have distinct keys. -/
def safeV : JVal → Bool
  | .jnull => true
  | .jbool _ => true
  | .jnum _ => true
  | .jstr s => safeStr s
  | .jarr xs => safeArr xs
  | .jobj fs => safeFlds fs && nodupKeys (fs.map Prod.fst)

/-- Elementwise safety of a list of values. -/
def safeArr : List JVal → Bool
  | [] => true
  | v :: t => safeV v && safeArr t

/-- Fieldwise safety of the members of an object. -/
def safeFlds : List (String × JVal) → Bool
  | [] => true
  | (k, v) :: t => safeStr k && safeV v && safeFlds t

end

mutual

/-- Whether a value contains a string token anywhere (a string value, or an
object with at least one field, whose key is a string token). -/
def hasStrV : JVal → Bool
  | .jnull => false
  | .jbool _ => false
  | .jnum _ => false
  | .jstr _ => true
  | .jarr xs => hasStrArr xs
  | .jobj fs => !fs.isEmpty

/-- Whether some element of the list contains a string token. -/
def hasStrArr : List JVal → Bool
  | [] => false
  | v :: t => hasStrV v || hasStrArr t

end

mutual

/-- Canonical double-quoted serialization of a value (no whitespace, no
escapes: the safe strings of the theorems need none). -/
def serV : JVal → List Char
  | .jnull => ['n', 'u', 'l', 'l']
  | .jbool true => ['t', 'r', 'u', 'e']
  | .jbool false => ['f', 'a', 'l', 's', 'e']
  | .jnum n => intChars n
  | .jstr s => '"' :: s.data ++ ['"']
  | .jarr xs => '[' :: serElemsL xs ++ [']']
  | .jobj fs => '\x7b' :: serFldsL fs ++ ['\x7d']

/-- Comma-separated serializations of the elements of an array. -/
def serElemsL : List JVal → List Char
  | [] => []
  | [v] => serV v
  | v :: t => serV v ++ ',' :: serElemsL t

/-- Comma-separated serializations of the fields of an object. -/
def serFldsL : List (String × JVal) → List Char
  | [] => []
  | [(k, v)] => '"' :: k.data ++ '"' :: ':' :: serV v
  | (k, v) :: t => ('"' :: k.data ++ '"' :: ':' :: serV v) ++ ',' :: serFldsL t

end

mutual

/-- Single-quoted serialization of a value: identical to serV except that
every string token is delimited by single quotes — the wrong quoting
convention the repair strategy exists to fix. -/
def serSQ : JVal → List Char
  | .jnull => ['n', 'u', 'l', 'l']
  | .jbool true => ['t', 'r', 'u', 'e']
  | .jbool false => ['f', 'a', 'l', 's', 'e']
  | .jnum n => intChars n
  | .jstr s => '\x27' :: s.data ++ ['\x27']
  | .jarr xs => '[' :: serSQElems xs ++ [']']
  | .jobj fs => '\x7b' :: serSQFlds fs ++ ['\x7d']

/-- Single-quoted serializations of the elements of an array. -/
def serSQElems : List JVal → List Char
  | [] => []
  | [v] => serSQ v
  | v :: t => serSQ v ++ ',' :: serSQElems t

/-- Single-quoted serializations of the fields of an object. -/
def serSQFlds : List (String × JVal) → List Char
  | [] => []
  | [(k, v)] => '\x27' :: k.data ++ '\x27' :: ':' :: serSQ v
  | (k, v) :: t => ('\x27' :: k.data ++ '\x27' :: ':' :: serSQ v) ++ ',' :: serSQFlds t

end

mutual

/-- Parser fuel needed for a value (one unit per recursion level). -/
def sizeJ : JVal → Nat
  | .jnull => 1
  | .jbool _ => 1
  | .jnum _ => 1
  | .jstr _ => 1
  | .jarr xs => 1 + sizeArr xs
  | .jobj fs => 1 + sizeFlds fs

/-- Parser fuel needed for the elements of an array. -/
def sizeArr : List JVal → Nat
  | [] => 0
  | v :: t => 1 + sizeJ v + sizeArr t

/-- Parser fuel needed for the fields of an object. -/
def sizeFlds : List (String × JVal) → Nat
  | [] => 0
  | (_, v) :: t => 1 + sizeJ v + sizeFlds t

end

/-- Whether a remainder cannot extend a numeral: empty, or starting with a
character that is no digit. -/
def headNotDigit : List Char → Bool
  | [] => true
  | c :: _ => !c.isDigit

/-- The character map of the quote repair: a single quote becomes a double
quote, everything else is unchanged. -/
def sq2dq (c : Char) : Char :=
  if c = '\x27' then '"' else c

/-- Structural characters a double-quoted serialization may contain outside
its string contents. -/
def structChar (c : Char) : Bool :=
  c.isDigit || c = '"' || c = ':' || c = ',' || c = '[' || c = ']' ||
  c = '\x7b' || c = '\x7d' || c = '-' || c = 't' || c = 'r' || c = 'u' ||
  c = 'e' || c = 'f' || c = 'a' || c = 'l' || c = 's' || c = 'n'

/-- Structural characters a single-quoted serialization may contain outside
its string contents. -/
def structSQChar (c : Char) : Bool :=
  c.isDigit || c = '\x27' || c = ':' || c = ',' || c = '[' || c = ']' ||
  c = '\x7b' || c = '\x7d' || c = '-' || c = 't' || c = 'r' || c = 'u' ||
  c = 'e' || c = 'f' || c = 'a' || c = 'l' || c = 's' || c = 'n'

/-- Whether a value is atomic (no array or object nesting): the shape of every
field value of the flat records the app exchanges. -/
def atomV : JVal → Bool
  | .jarr _ => false
  | .jobj _ => false
  | _ => true

/-- Whether every field value of an object is atomic. -/
def flatFlds : List (String × JVal) → Bool
  | [] => true
  | (_, v) :: t => atomV v && flatFlds t

/-- Whether every comma of the text is immediately followed by a character
that is not whitespace and closes no bracket or brace — on such a text the
trailing-comma deletion is the identity. -/
def commasTight : List Char → Bool
  | [] => true
  | c :: t =>
    (if c = ',' then
      match t with
      | d :: _ => !(d = ']' || d = '\x7d' || isPyWs d)
      | [] => false
     else true) && commasTight t

/-! ### Character-level facts -/

theorem skipWs_cons_neg {c : Char} (t : List Char) (h : isJsonWs c = false) :
    skipWs (c :: t) = c :: t := by
  simp [skipWs, h]

theorem pyStrip_sandwich {a b : Char} (mid : List Char)
    (ha : isPyWs a = false) (hb : isPyWs b = false) :
    pyStrip (a :: mid ++ [b]) = a :: mid ++ [b] := by
  have h1 : List.dropWhile isPyWs (a :: (mid ++ [b])) = a :: (mid ++ [b]) := by
    simp [List.dropWhile_cons, ha]
  have h2 : (a :: mid ++ [b]).reverse = b :: (a :: mid).reverse := by
    rw [show a :: mid ++ [b] = (a :: mid) ++ [b] from rfl, List.reverse_append]
    rfl
  have h3 : List.dropWhile isPyWs (b :: (a :: mid).reverse) = b :: (a :: mid).reverse := by
    simp [List.dropWhile_cons, hb]
  unfold pyStrip
  rw [show a :: mid ++ [b] = a :: (mid ++ [b]) from rfl, h1,
    show a :: (mid ++ [b]) = a :: mid ++ [b] from rfl, h2, h3, ← h2,
    List.reverse_reverse]

theorem pyFind_cons_self (c : Char) (t : List Char) : pyFind c (c :: t) = some 0 := by
  simp [pyFind]

theorem pyFind_eq_none {c : Char} : ∀ {l : List Char}, c ∉ l → pyFind c l = none
  | [], _ => rfl
  | d :: t, h => by
    have hd : d ≠ c := fun he => h (by simp [he])
    have ht : c ∉ t := fun hm => h (List.mem_cons_of_mem _ hm)
    simp [pyFind, hd, pyFind_eq_none ht]

theorem pyRFind_last (c : Char) (l : List Char) : pyRFind c (l ++ [c]) = some l.length := by
  unfold pyRFind
  rw [List.reverse_append]
  simp [pyFind_cons_self]

theorem extract_sandwich (mid : List Char) :
    extractJsonArray ('[' :: mid ++ [']']) = '[' :: mid ++ [']'] := by
  unfold extractJsonArray
  have h1 : pyFind '[' ('[' :: mid ++ [']']) = some 0 := pyFind_cons_self _ _
  have h2 : pyRFind ']' ('[' :: mid ++ [']']) = some (('[' :: mid).length) := by
    have := pyRFind_last ']' ('[' :: mid)
    simpa using this
  rw [h1, h2]
  have hlt : 0 < ('[' :: mid).length := by simp
  dsimp only
  rw [if_pos hlt]
  simp only [List.drop_zero, Nat.sub_zero]
  have hlen : ('[' :: mid ++ [']']).length = ('[' :: mid).length + 1 := by simp
  rw [← hlen]
  exact List.take_length _

theorem fenceHere_eq_false : ∀ {l : List Char}, btick ∉ l → fenceHere l = false
  | [], _ => rfl
  | [_], _ => rfl
  | [_, _], _ => rfl
  | c :: _ :: _ :: _, h => by
    have hc : ¬(c = btick) := fun hcc => h (by simp [hcc])
    simp [fenceHere, hc]

theorem hasFence_eq_false : ∀ {l : List Char}, btick ∉ l → hasFence l = false
  | [], _ => rfl
  | c :: t, h => by
    simp only [hasFence, Bool.or_eq_false_iff]
    exact ⟨fenceHere_eq_false h,
      hasFence_eq_false (fun hm => h (List.mem_cons_of_mem _ hm))⟩

theorem cleanFences_eq_self {l : List Char} (h : btick ∉ l) : cleanFences l = l := by
  unfold cleanFences
  rw [hasFence_eq_false h]
  simp

theorem safeChar_spec {c : Char} (h : safeChar c = true) :
    ¬(c = '"') ∧ ¬(c = '\x27') ∧ ¬(c = '\\') ∧ ¬(c = btick) ∧ ¬(c = '[') ∧
    ¬(c = ']') ∧ ¬(c = '\x7b') ∧ ¬(c = '\x7d') ∧ ¬(c = ',') ∧ ¬(c = '\n') ∧
    ¬(c = '\r') := by
  simp only [safeChar, Bool.not_eq_true', Bool.or_eq_false_iff,
    decide_eq_false_iff_not] at h
  tauto

/-! ### Decimal digit facts -/

theorem digitChar_spec (d : Nat) :
    (digitChar d).isDigit = true ∧ digitVal (digitChar d) = d % 10 := by
  unfold digitChar digitVal
  have h : d % 10 < 10 := Nat.mod_lt _ (by omega)
  set m := d % 10 with hm
  interval_cases m <;> exact ⟨by decide, by decide⟩

theorem digit_bounds {c : Char} (h : c.isDigit = true) :
    48 ≤ c.toNat ∧ c.toNat ≤ 57 := by
  simp only [Char.isDigit, Bool.and_eq_true, decide_eq_true_eq] at h
  exact h

theorem digit_not_special {c : Char} (h : c.isDigit = true) :
    ¬(c = '-') ∧ ¬(c = 't') ∧ ¬(c = 'f') ∧ ¬(c = 'n') ∧ ¬(c = '"') ∧
    ¬(c = '\x7b') ∧ ¬(c = '[') ∧ ¬(c = ']') ∧ ¬(c = '\x7d') ∧ ¬(c = ',') ∧
    ¬(c = ':') ∧ isJsonWs c = false ∧ isPyWs c = false ∧ ¬(c = btick) ∧
    ¬(c = '\x27') := by
  obtain ⟨h1, h2⟩ := digit_bounds h
  have hne : ∀ d : Char, d.toNat < 48 ∨ 57 < d.toNat → ¬(c = d) := by
    intro d hd hc
    subst hc
    omega
  have hws : isJsonWs c = false := by
    simp only [isJsonWs, Bool.or_eq_false_iff, decide_eq_false_iff_not]
    exact ⟨⟨⟨hne ' ' (by decide), hne '\t' (by decide)⟩, hne '\n' (by decide)⟩,
      hne '\r' (by decide)⟩
  have hpws : isPyWs c = false := by
    simp only [isPyWs, hws, Bool.or_eq_false_iff, decide_eq_false_iff_not,
      Bool.false_or]
    exact ⟨hne '\x0b' (by decide), hne '\x0c' (by decide)⟩
  exact ⟨hne '-' (by decide), hne 't' (by decide), hne 'f' (by decide),
    hne 'n' (by decide), hne '"' (by decide), hne '\x7b' (by decide),
    hne '[' (by decide), hne ']' (by decide), hne '\x7d' (by decide),
    hne ',' (by decide), hne ':' (by decide), hws, hpws,
    hne btick (by decide), hne '\x27' (by decide)⟩

theorem natToDigits_ne_nil (n : Nat) : natToDigits n ≠ [] := by
  rw [natToDigits.eq_def]
  split <;> simp

theorem natToDigits_digits (n : Nat) : ∀ c ∈ natToDigits n, c.isDigit = true := by
  induction n using Nat.strong_induction_on with
  | _ n ih =>
    rw [natToDigits.eq_def]
    split
    · intro c hc
      rw [List.mem_singleton] at hc
      subst hc
      exact (digitChar_spec n).1
    · intro c hc
      rw [List.mem_append] at hc
      rcases hc with hc | hc
      · exact ih (n / 10) (Nat.div_lt_self (by omega) (by omega)) c hc
      · rw [List.mem_singleton] at hc
        subst hc
        exact (digitChar_spec (n % 10)).1

theorem digitsVal_append_last (a : List Char) (c : Char) :
    digitsVal (a ++ [c]) = 10 * digitsVal a + digitVal c := by
  unfold digitsVal
  rw [List.foldl_append]
  rfl

theorem digitsVal_natToDigits (n : Nat) : digitsVal (natToDigits n) = n := by
  induction n using Nat.strong_induction_on with
  | _ n ih =>
    rw [natToDigits.eq_def]
    split
    · rename_i h
      show digitsVal [digitChar n] = n
      have hv := (digitChar_spec n).2
      unfold digitsVal
      simp only [List.foldl_cons, List.foldl_nil]
      omega
    · rename_i h
      rw [digitsVal_append_last, ih (n / 10) (Nat.div_lt_self (by omega) (by omega))]
      have hv := (digitChar_spec (n % 10)).2
      omega

theorem takeWhile_append_all {p : Char → Bool} :
    ∀ (a b : List Char), (∀ c ∈ a, p c = true) →
      (∀ c, b.head? = some c → p c = false) → (a ++ b).takeWhile p = a
  | [], b, _, hb => by
    cases b with
    | nil => rfl
    | cons c t => simp [List.takeWhile_cons, hb c rfl]
  | x :: a', b, ha, hb => by
    have hx := ha x (by simp)
    simp only [List.cons_append, List.takeWhile_cons, hx, if_true]
    rw [takeWhile_append_all a' b (fun c hc => ha c (by simp [hc])) hb]

theorem dropWhile_append_all {p : Char → Bool} :
    ∀ (a b : List Char), (∀ c ∈ a, p c = true) →
      (∀ c, b.head? = some c → p c = false) → (a ++ b).dropWhile p = b
  | [], b, _, hb => by
    cases b with
    | nil => rfl
    | cons c t => simp [List.dropWhile_cons, hb c rfl]
  | x :: a', b, ha, hb => by
    have hx := ha x (by simp)
    simp only [List.cons_append, List.dropWhile_cons, hx, if_true]
    exact dropWhile_append_all a' b (fun c hc => ha c (by simp [hc])) hb

theorem spanD_append {p : Char → Bool} (a b : List Char)
    (ha : ∀ c ∈ a, p c = true) (hb : ∀ c, b.head? = some c → p c = false) :
    spanD p (a ++ b) = (a, b) := by
  unfold spanD
  rw [takeWhile_append_all a b ha hb, dropWhile_append_all a b ha hb]

theorem headNotDigit_spec {rest : List Char} (h : headNotDigit rest = true) :
    ∀ c, rest.head? = some c → c.isDigit = false := by
  intro c hc
  cases rest with
  | nil => simp at hc
  | cons d t =>
    simp only [List.head?_cons, Option.some.injEq] at hc
    subst hc
    simpa [headNotDigit] using h

theorem parseNum_minus (r : List Char) :
    parseNum ('-' :: r) =
      (if (spanD Char.isDigit r).1.isEmpty then none
       else some (-(digitsVal (spanD Char.isDigit r).1 : Int), (spanD Char.isDigit r).2)) := by
  simp [parseNum]

theorem parseNum_nonminus {c : Char} (hc : ¬(c = '-')) (r : List Char) :
    parseNum (c :: r) =
      (if (spanD Char.isDigit (c :: r)).1.isEmpty then none
       else some ((digitsVal (spanD Char.isDigit (c :: r)).1 : Int),
         (spanD Char.isDigit (c :: r)).2)) := by
  simp [parseNum, hc]

theorem natToDigits_cons (m : Nat) :
    ∃ c t, natToDigits m = c :: t ∧ c.isDigit = true := by
  cases hnd : natToDigits m with
  | nil => exact absurd hnd (natToDigits_ne_nil _)
  | cons c t =>
    exact ⟨c, t, rfl, natToDigits_digits _ c (hnd ▸ List.mem_cons_self _ _)⟩

theorem parseNum_intChars (n : Int) (rest : List Char)
    (hr : headNotDigit rest = true) :
    parseNum (intChars n ++ rest) = some (n, rest) := by
  by_cases hneg : n < 0
  · have harg : intChars n ++ rest = '-' :: (natToDigits n.natAbs ++ rest) := by
      simp [intChars, hneg]
    rw [harg, parseNum_minus,
      spanD_append _ _ (natToDigits_digits _) (headNotDigit_spec hr)]
    simp only [List.isEmpty_eq_true]
    rw [if_neg (natToDigits_ne_nil _), digitsVal_natToDigits]
    have hn : -((n.natAbs : Int)) = n := by omega
    rw [hn]
  · obtain ⟨c0, t0, h0, hdig⟩ := natToDigits_cons n.toNat
    have harg : intChars n ++ rest = c0 :: (t0 ++ rest) := by
      simp [intChars, hneg, h0]
    rw [harg, parseNum_nonminus (digit_not_special hdig).1]
    have hspan : spanD Char.isDigit (c0 :: (t0 ++ rest)) = (c0 :: t0, rest) := by
      have := spanD_append (c0 :: t0) rest
        (fun c hc => natToDigits_digits n.toNat c (h0 ▸ hc)) (headNotDigit_spec hr)
      simpa using this
    rw [hspan]
    simp only [List.isEmpty_cons]
    rw [if_neg (by simp)]
    have hval : digitsVal (c0 :: t0) = n.toNat := by
      have := digitsVal_natToDigits n.toNat
      rwa [h0] at this
    rw [hval]
    have hn : ((n.toNat : Int)) = n := by omega
    rw [hn]

/-! ### String body round trip -/

theorem parseStrAux_quote (rest : List Char) :
    parseStrAux ('"' :: rest) = some ([], rest) := by
  cases rest <;> simp [parseStrAux]

theorem parseStrAux_safe :
    ∀ (cs rest : List Char), (∀ c ∈ cs, safeChar c = true) →
      parseStrAux (cs ++ '"' :: rest) = some (cs, rest)
  | [], rest, _ => parseStrAux_quote rest
  | a :: cs', rest, h => by
    have ha := safeChar_spec (h a (by simp))
    rcases hsh : cs' ++ '"' :: rest with _ | ⟨x, y⟩
    · simp at hsh
    · have hgoal : a :: cs' ++ '"' :: rest = a :: x :: y := by
        rw [show a :: cs' ++ '"' :: rest = a :: (cs' ++ '"' :: rest) from rfl, hsh]
      rw [hgoal]
      simp only [parseStrAux]
      rw [if_neg ha.1, if_neg ha.2.2.1]
      rw [show x :: y = cs' ++ '"' :: rest from hsh.symm]
      rw [parseStrAux_safe cs' rest (fun c hc => h c (by simp [hc]))]
      rfl

/-! ### Characters of a serialization -/

theorem intChars_mem (n : Int) : ∀ c ∈ intChars n, c.isDigit = true ∨ c = '-' := by
  intro c hc
  unfold intChars at hc
  split at hc
  · rcases List.mem_cons.mp hc with rfl | hc2
    · exact .inr rfl
    · exact .inl (natToDigits_digits _ c hc2)
  · exact .inl (natToDigits_digits _ c hc)

theorem intChars_ne_nil (n : Int) : intChars n ≠ [] := by
  unfold intChars
  split
  · simp
  · exact natToDigits_ne_nil _

theorem chopLit_head_ne {p c : Char} (ps t : List Char) (h : ¬(c = p)) :
    chopLit (p :: ps) (c :: t) = none := by
  simp [chopLit, h]

theorem serV_head (v : JVal) :
    ∃ c t, serV v = c :: t ∧ isJsonWs c = false ∧ isPyWs c = false ∧
      ¬(c = ']') ∧ ¬(c = '\x7d') := by
  cases v with
  | jnull => exact ⟨'n', _, rfl, by decide, by decide, by decide, by decide⟩
  | jbool b =>
    cases b with
    | false => exact ⟨'f', _, rfl, by decide, by decide, by decide, by decide⟩
    | true => exact ⟨'t', _, rfl, by decide, by decide, by decide, by decide⟩
  | jnum n =>
    by_cases hn : n < 0
    · exact ⟨'-', natToDigits n.natAbs, by simp [serV, intChars, hn], by decide,
        by decide, by decide, by decide⟩
    · obtain ⟨c0, t0, h0, hd⟩ := natToDigits_cons n.toNat
      obtain ⟨_, _, _, _, _, _, _, hcb, hcbr, _, _, hjw, hpw, _, _⟩ :=
        digit_not_special hd
      exact ⟨c0, t0, by simp [serV, intChars, hn, h0], hjw, hpw, hcb, hcbr⟩
  | jstr s => exact ⟨'"', _, rfl, by decide, by decide, by decide, by decide⟩
  | jarr xs => exact ⟨'[', _, rfl, by decide, by decide, by decide, by decide⟩
  | jobj fs => exact ⟨'\x7b', _, rfl, by decide, by decide, by decide, by decide⟩

theorem skipWs_serV (v : JVal) (x : List Char) :
    skipWs (serV v ++ x) = serV v ++ x := by
  obtain ⟨c, t, hc, hws, _, _, _⟩ := serV_head v
  rw [hc, List.cons_append, skipWs_cons_neg _ hws]

theorem safeArr_cons {v : JVal} {t : List JVal} (h : safeArr (v :: t) = true) :
    safeV v = true ∧ safeArr t = true := by
  simpa [safeArr, Bool.and_eq_true] using h

theorem safeFlds_cons {k : String} {v : JVal} {t : List (String × JVal)}
    (h : safeFlds ((k, v) :: t) = true) :
    safeStr k = true ∧ safeV v = true ∧ safeFlds t = true := by
  simp only [safeFlds, Bool.and_eq_true] at h
  tauto

theorem safeV_jarr {xs : List JVal} (h : safeV (.jarr xs) = true) :
    safeArr xs = true := by
  simpa [safeV] using h

theorem safeV_jobj {fs : List (String × JVal)} (h : safeV (.jobj fs) = true) :
    safeFlds fs = true := by
  simp only [safeV, Bool.and_eq_true] at h
  exact h.1

theorem safeV_jstr {s : String} (h : safeV (.jstr s) = true) :
    ∀ c ∈ s.data, safeChar c = true := by
  simpa [safeV, safeStr, List.all_eq_true] using h

theorem safeStr_chars {s : String} (h : safeStr s = true) :
    ∀ c ∈ s.data, safeChar c = true := by
  simpa [safeStr, List.all_eq_true] using h

mutual

theorem serV_mem : ∀ (v : JVal), safeV v = true →
    ∀ c ∈ serV v, safeChar c = true ∨ structChar c = true
  | .jnull, _ => by
    intro c hc
    simp only [serV] at hc
    fin_cases hc <;> exact .inr (by decide)
  | .jbool true, _ => by
    intro c hc
    simp only [serV] at hc
    fin_cases hc <;> exact .inr (by decide)
  | .jbool false, _ => by
    intro c hc
    simp only [serV] at hc
    fin_cases hc <;> exact .inr (by decide)
  | .jnum n, _ => by
    intro c hc
    rcases intChars_mem n c hc with hd | rfl
    · exact .inr (by simp [structChar, hd])
    · exact .inr (by decide)
  | .jstr s, hs => by
    intro c hc
    simp only [serV, List.cons_append] at hc
    rcases List.mem_cons.mp hc with rfl | hc2
    · exact .inr (by decide)
    rcases List.mem_append.mp hc2 with hc3 | hc4
    · exact .inl (safeV_jstr hs c hc3)
    · rw [List.mem_singleton] at hc4
      subst hc4
      exact .inr (by decide)
  | .jarr xs, hs => by
    intro c hc
    simp only [serV] at hc
    rcases List.mem_cons.mp hc with rfl | hc2
    · exact .inr (by decide)
    rcases List.mem_append.mp hc2 with hc3 | hc4
    · exact serElems_mem xs (safeV_jarr hs) c hc3
    · rw [List.mem_singleton] at hc4
      subst hc4
      exact .inr (by decide)
  | .jobj fs, hs => by
    intro c hc
    simp only [serV] at hc
    rcases List.mem_cons.mp hc with rfl | hc2
    · exact .inr (by decide)
    rcases List.mem_append.mp hc2 with hc3 | hc4
    · exact serFlds_mem fs (safeV_jobj hs) c hc3
    · rw [List.mem_singleton] at hc4
      subst hc4
      exact .inr (by decide)
termination_by v => sizeOf v

theorem serElems_mem : ∀ (xs : List JVal), safeArr xs = true →
    ∀ c ∈ serElemsL xs, safeChar c = true ∨ structChar c = true
  | [], _ => by
    intro c hc
    simp [serElemsL] at hc
  | [v], hs => by
    intro c hc
    exact serV_mem v (safeArr_cons hs).1 c (by simpa [serElemsL] using hc)
  | v :: w :: t, hs => by
    intro c hc
    simp only [serElemsL] at hc
    rcases List.mem_append.mp hc with hc2 | hc2
    · exact serV_mem v (safeArr_cons hs).1 c hc2
    rcases List.mem_cons.mp hc2 with rfl | hc3
    · exact .inr (by decide)
    · exact serElems_mem (w :: t) (safeArr_cons hs).2 c hc3
termination_by xs => sizeOf xs

theorem serFlds_mem : ∀ (fs : List (String × JVal)), safeFlds fs = true →
    ∀ c ∈ serFldsL fs, safeChar c = true ∨ structChar c = true
  | [], _ => by
    intro c hc
    simp [serFldsL] at hc
  | [(k, v)], hs => by
    intro c hc
    obtain ⟨hk, hv, _⟩ := safeFlds_cons hs
    simp only [serFldsL] at hc
    rcases List.mem_cons.mp hc with rfl | hc2
    · exact .inr (by decide)
    rcases List.mem_append.mp hc2 with hc3 | hc4
    · exact .inl (safeStr_chars hk c hc3)
    rcases List.mem_cons.mp hc4 with rfl | hc5
    · exact .inr (by decide)
    rcases List.mem_cons.mp hc5 with rfl | hc6
    · exact .inr (by decide)
    · exact serV_mem v hv c hc6
  | (k, v) :: f2 :: t, hs => by
    intro c hc
    obtain ⟨hk, hv, ht⟩ := safeFlds_cons hs
    simp only [serFldsL] at hc
    rcases List.mem_append.mp hc with hc2 | hc2
    · rcases List.mem_cons.mp hc2 with rfl | hc3
      · exact .inr (by decide)
      rcases List.mem_append.mp hc3 with hc4 | hc5
      · exact .inl (safeStr_chars hk c hc4)
      rcases List.mem_cons.mp hc5 with rfl | hc6
      · exact .inr (by decide)
      rcases List.mem_cons.mp hc6 with rfl | hc7
      · exact .inr (by decide)
      · exact serV_mem v hv c hc7
    · rcases List.mem_cons.mp hc2 with rfl | hc3
      · exact .inr (by decide)
      · exact serFlds_mem (f2 :: t) ht c hc3
termination_by fs => sizeOf fs

end

/-! ### Fuel bounds -/

theorem sizeJ_pos (v : JVal) : 1 ≤ sizeJ v := by
  cases v <;> simp [sizeJ]

mutual

theorem sizeJ_le : ∀ v : JVal, sizeJ v ≤ (serV v).length
  | .jnull => by simp [sizeJ, serV]
  | .jbool true => by simp [sizeJ, serV]
  | .jbool false => by simp [sizeJ, serV]
  | .jnum n => by
    simp only [sizeJ, serV]
    cases h : intChars n with
    | nil => exact absurd h (intChars_ne_nil n)
    | cons a b => simp
  | .jstr s => by simp [sizeJ, serV]
  | .jarr xs => by
    have h := sizeArr_le xs
    simp only [sizeJ, serV, List.length_cons, List.length_append,
      List.length_singleton]
    omega
  | .jobj fs => by
    have h := sizeFlds_le fs
    simp only [sizeJ, serV, List.length_cons, List.length_append,
      List.length_singleton]
    omega
termination_by v => sizeOf v

theorem sizeArr_le : ∀ xs : List JVal, sizeArr xs ≤ (serElemsL xs).length + 1
  | [] => by simp [sizeArr, serElemsL]
  | [v] => by
    have h := sizeJ_le v
    simp only [sizeArr, serElemsL]
    omega
  | v :: w :: t => by
    have h1 := sizeJ_le v
    have h2 := sizeArr_le (w :: t)
    rw [show sizeArr (v :: w :: t) = 1 + sizeJ v + sizeArr (w :: t) from rfl,
      show serElemsL (v :: w :: t) = serV v ++ ',' :: serElemsL (w :: t) from rfl]
    simp only [List.length_append, List.length_cons]
    omega
termination_by xs => sizeOf xs

theorem sizeFlds_le : ∀ fs : List (String × JVal), sizeFlds fs ≤ (serFldsL fs).length + 1
  | [] => by simp [sizeFlds, serFldsL]
  | [(k, v)] => by
    have h := sizeJ_le v
    simp only [sizeFlds, serFldsL, List.length_cons, List.length_append]
    omega
  | (k, v) :: f2 :: t => by
    have h1 := sizeJ_le v
    have h2 := sizeFlds_le (f2 :: t)
    rw [show sizeFlds ((k, v) :: f2 :: t) = 1 + sizeJ v + sizeFlds (f2 :: t) from rfl,
      show serFldsL ((k, v) :: f2 :: t) =
        ('"' :: k.data ++ '"' :: ':' :: serV v) ++ ',' :: serFldsL (f2 :: t) from rfl]
    simp only [List.length_append, List.length_cons]
    omega
termination_by fs => sizeOf fs

end

/-! ### Parser branch reductions -/

theorem parseVal_str_branch (f : Nat) (X : List Char) :
    parseVal (f + 1) ('"' :: X) =
      (parseStrAux X).map (fun p => (.jstr (String.mk p.1), p.2)) := by
  simp [parseVal, skipWs, isJsonWs]

theorem parseVal_obj_step (f : Nat) (X : List Char) :
    parseVal (f + 1) ('\x7b' :: X) =
      (match skipWs X with
       | [] => none
       | d :: r2 =>
         if d = '\x7d' then some (.jobj [], r2)
         else (parseFlds f X).map (fun p => (.jobj p.1, p.2))) := by
  simp [parseVal, skipWs, isJsonWs]

theorem parseVal_arr_step (f : Nat) (X : List Char) :
    parseVal (f + 1) ('[' :: X) =
      (match skipWs X with
       | [] => none
       | d :: r2 =>
         if d = ']' then some (.jarr [], r2)
         else (parseElems f X).map (fun p => (.jarr p.1, p.2))) := by
  simp [parseVal, skipWs, isJsonWs]

theorem parseVal_other_branch {c : Char} (f : Nat) (r : List Char)
    (hws : isJsonWs c = false) (hq : ¬(c = '"')) (hob : ¬(c = '\x7b'))
    (hok : ¬(c = '[')) :
    parseVal (f + 1) (c :: r) =
      (match chopLit ['t', 'r', 'u', 'e'] (c :: r) with
       | some r2 => some (.jbool true, r2)
       | none =>
         match chopLit ['f', 'a', 'l', 's', 'e'] (c :: r) with
         | some r2 => some (.jbool false, r2)
         | none =>
           match chopLit ['n', 'u', 'l', 'l'] (c :: r) with
           | some r2 => some (.jnull, r2)
           | none => (parseNum (c :: r)).map (fun p => (.jnum p.1, p.2))) := by
  simp [parseVal, skipWs, hws, hq, hob, hok]

theorem parseVal_num_branch {c : Char} (f : Nat) (r : List Char)
    (hd : c.isDigit = true ∨ c = '-') :
    parseVal (f + 1) (c :: r) = (parseNum (c :: r)).map (fun p => (.jnum p.1, p.2)) := by
  have hfacts : isJsonWs c = false ∧ ¬(c = '"') ∧ ¬(c = '\x7b') ∧ ¬(c = '[') ∧
      ¬(c = 't') ∧ ¬(c = 'f') ∧ ¬(c = 'n') := by
    rcases hd with hd | rfl
    · obtain ⟨_, ht, hf2, hn, hq, hob, hok, _, _, _, _, hjw, _, _, _⟩ :=
        digit_not_special hd
      exact ⟨hjw, hq, hob, hok, ht, hf2, hn⟩
    · exact ⟨by decide, by decide, by decide, by decide, by decide, by decide,
        by decide⟩
  obtain ⟨hws, hq, hob, hok, ht, hf2, hn⟩ := hfacts
  rw [parseVal_other_branch f r hws hq hob hok]
  rw [chopLit_head_ne _ _ ht, chopLit_head_ne _ _ hf2, chopLit_head_ne _ _ hn]

/-! ### Serialization round trip -/

theorem serElemsL_cons_shape (x : JVal) (t : List JVal) (y : List Char) :
    ∃ c z, serElemsL (x :: t) ++ y = c :: z ∧ isJsonWs c = false ∧
      ¬(c = ']') ∧ ¬(c = '\x7d') ∧ isPyWs c = false := by
  obtain ⟨c, tc, hc, hws, hpw, hbr, hbrc⟩ := serV_head x
  cases t with
  | nil =>
    refine ⟨c, tc ++ y, ?_, hws, hbr, hbrc, hpw⟩
    simp [serElemsL, hc]
  | cons w t' =>
    refine ⟨c, tc ++ (',' :: serElemsL (w :: t') ++ y), ?_, hws, hbr, hbrc, hpw⟩
    show (serV x ++ ',' :: serElemsL (w :: t')) ++ y = _
    simp [hc]

theorem serFldsL_cons_shape (k : String) (v : JVal) (t : List (String × JVal))
    (y : List Char) :
    ∃ z, serFldsL ((k, v) :: t) ++ y = '"' :: z := by
  cases t with
  | nil => exact ⟨k.data ++ '"' :: ':' :: serV v ++ y, by simp [serFldsL]⟩
  | cons f2 t' =>
    exact ⟨k.data ++ '"' :: ':' :: serV v ++ (',' :: serFldsL (f2 :: t') ++ y),
      by simp [serFldsL]⟩

mutual

theorem rtV : ∀ (fuel : Nat) (v : JVal) (rest : List Char),
    safeV v = true → sizeJ v ≤ fuel → headNotDigit rest = true →
    parseVal fuel (serV v ++ rest) = some (v, rest)
  | 0, v, _, _, hf, _ => by
    have := sizeJ_pos v
    omega
  | fuel + 1, .jnull, rest, _, _, _ => by
    show parseVal (fuel + 1) ('n' :: 'u' :: 'l' :: 'l' :: rest) = _
    rw [parseVal_other_branch fuel _ (by decide) (by decide) (by decide) (by decide)]
    simp [chopLit]
  | fuel + 1, .jbool true, rest, _, _, _ => by
    show parseVal (fuel + 1) ('t' :: 'r' :: 'u' :: 'e' :: rest) = _
    rw [parseVal_other_branch fuel _ (by decide) (by decide) (by decide) (by decide)]
    simp [chopLit]
  | fuel + 1, .jbool false, rest, _, _, _ => by
    show parseVal (fuel + 1) ('f' :: 'a' :: 'l' :: 's' :: 'e' :: rest) = _
    rw [parseVal_other_branch fuel _ (by decide) (by decide) (by decide) (by decide)]
    simp [chopLit]
  | fuel + 1, .jnum n, rest, _, _, hr => by
    obtain ⟨c0, t0, hc0, hd0⟩ : ∃ c t, intChars n = c :: t ∧
        (c.isDigit = true ∨ c = '-') := by
      cases h : intChars n with
      | nil => exact absurd h (intChars_ne_nil n)
      | cons a b => exact ⟨a, b, rfl, intChars_mem n a (h ▸ List.mem_cons_self _ _)⟩
    have harg : serV (.jnum n) ++ rest = c0 :: (t0 ++ rest) := by
      simp [serV, hc0]
    rw [harg, parseVal_num_branch fuel _ hd0,
      show c0 :: (t0 ++ rest) = intChars n ++ rest by simp [hc0],
      parseNum_intChars n rest hr]
    rfl
  | fuel + 1, .jstr s, rest, hs, _, _ => by
    have harg : serV (.jstr s) ++ rest = '"' :: (s.data ++ '"' :: rest) := by
      simp [serV]
    rw [harg, parseVal_str_branch, parseStrAux_safe s.data rest (safeV_jstr hs)]
    rfl
  | fuel + 1, .jarr [], rest, _, _, _ => by
    have harg : serV (.jarr []) ++ rest = '[' :: (']' :: rest) := by
      simp [serV, serElemsL]
    rw [harg, parseVal_arr_step]
    rw [skipWs_cons_neg _ (by decide)]
    simp
  | fuel + 1, .jarr (x :: t), rest, hs, hf, _ => by
    have harg : serV (.jarr (x :: t)) ++ rest =
        '[' :: (serElemsL (x :: t) ++ ']' :: rest) := by
      simp [serV]
    rw [harg, parseVal_arr_step]
    obtain ⟨c, z, hz, hws, hbr, _, _⟩ := serElemsL_cons_shape x t (']' :: rest)
    rw [hz, skipWs_cons_neg _ hws]
    dsimp only
    rw [if_neg hbr, ← hz]
    rw [rtElems fuel x t rest (safeV_jarr hs)
      (by simp only [sizeJ] at hf; omega)]
    rfl
  | fuel + 1, .jobj [], rest, _, _, _ => by
    have harg : serV (.jobj []) ++ rest = '\x7b' :: ('\x7d' :: rest) := by
      simp [serV, serFldsL]
    rw [harg, parseVal_obj_step]
    rw [skipWs_cons_neg _ (by decide)]
    simp
  | fuel + 1, .jobj ((k, v) :: t), rest, hs, hf, _ => by
    have harg : serV (.jobj ((k, v) :: t)) ++ rest =
        '\x7b' :: (serFldsL ((k, v) :: t) ++ '\x7d' :: rest) := by
      simp [serV]
    rw [harg, parseVal_obj_step]
    obtain ⟨z, hz⟩ := serFldsL_cons_shape k v t ('\x7d' :: rest)
    rw [hz, skipWs_cons_neg _ (by decide)]
    dsimp only
    rw [if_neg (by decide), ← hz]
    rw [rtFlds fuel k v t rest (safeV_jobj hs)
      (by simp only [sizeJ] at hf; omega)]
    rfl
termination_by fuel => fuel

theorem rtElems : ∀ (fuel : Nat) (x : JVal) (t : List JVal) (rest : List Char),
    safeArr (x :: t) = true → sizeArr (x :: t) ≤ fuel →
    parseElems fuel (serElemsL (x :: t) ++ ']' :: rest) = some (x :: t, rest)
  | 0, x, t, _, _, hf => by
    simp only [sizeArr] at hf
    have := sizeJ_pos x
    omega
  | fuel + 1, x, [], rest, hs, hf => by
    have harg : serElemsL [x] ++ ']' :: rest = serV x ++ ']' :: rest := by
      simp [serElemsL]
    show parseElems (fuel + 1) (serElemsL [x] ++ ']' :: rest) = _
    rw [harg]
    simp only [parseElems]
    rw [rtV fuel x (']' :: rest) (safeArr_cons hs).1
      (by simp only [sizeArr] at hf; omega) (by simp [headNotDigit])]
    dsimp only
    rw [skipWs_cons_neg _ (by decide)]
    dsimp only
    rw [if_neg (by decide), if_pos (by decide : (']' : Char) = ']')]
  | fuel + 1, x, w :: t', rest, hs, hf => by
    have harg : serElemsL (x :: w :: t') ++ ']' :: rest =
        serV x ++ (',' :: (serElemsL (w :: t') ++ ']' :: rest)) := by
      simp [serElemsL]
    rw [harg]
    simp only [parseElems]
    rw [rtV fuel x _ (safeArr_cons hs).1
      (by simp only [sizeArr] at hf; omega) (by simp [headNotDigit])]
    dsimp only
    rw [skipWs_cons_neg _ (by decide)]
    dsimp only
    rw [if_pos (by decide : (',' : Char) = ',')]
    rw [rtElems fuel w t' rest (safeArr_cons hs).2
      (by simp only [sizeArr] at hf ⊢; omega)]
    rfl
termination_by fuel => fuel

theorem rtFlds : ∀ (fuel : Nat) (k : String) (v : JVal) (t : List (String × JVal))
    (rest : List Char),
    safeFlds ((k, v) :: t) = true → sizeFlds ((k, v) :: t) ≤ fuel →
    parseFlds fuel (serFldsL ((k, v) :: t) ++ '\x7d' :: rest) = some ((k, v) :: t, rest)
  | 0, k, v, t, _, _, hf => by
    simp only [sizeFlds] at hf
    have := sizeJ_pos v
    omega
  | fuel + 1, k, v, [], rest, hs, hf => by
    obtain ⟨hk, hv, _⟩ := safeFlds_cons hs
    have harg : serFldsL [(k, v)] ++ '\x7d' :: rest =
        '"' :: (k.data ++ '"' :: (':' :: (serV v ++ '\x7d' :: rest))) := by
      simp [serFldsL]
    rw [harg]
    simp only [parseFlds]
    rw [skipWs_cons_neg _ (by decide)]
    dsimp only
    rw [if_pos (by decide : ('"' : Char) = '"')]
    rw [parseStrAux_safe k.data _ (safeStr_chars hk)]
    dsimp only
    rw [skipWs_cons_neg _ (by decide)]
    dsimp only
    rw [if_pos (by decide : (':' : Char) = ':')]
    rw [rtV fuel v ('\x7d' :: rest) hv
      (by simp only [sizeFlds] at hf; omega) (by simp [headNotDigit])]
    dsimp only
    rw [skipWs_cons_neg _ (by decide)]
    dsimp only
    rw [if_neg (by decide), if_pos (by decide : ('\x7d' : Char) = '\x7d')]
  | fuel + 1, k, v, (k2, v2) :: t', rest, hs, hf => by
    obtain ⟨hk, hv, ht⟩ := safeFlds_cons hs
    have harg : serFldsL ((k, v) :: (k2, v2) :: t') ++ '\x7d' :: rest =
        '"' :: (k.data ++ '"' :: (':' :: (serV v ++
          ',' :: (serFldsL ((k2, v2) :: t') ++ '\x7d' :: rest)))) := by
      simp [serFldsL]
    rw [harg]
    simp only [parseFlds]
    rw [skipWs_cons_neg _ (by decide)]
    dsimp only
    rw [if_pos (by decide : ('"' : Char) = '"')]
    rw [parseStrAux_safe k.data _ (safeStr_chars hk)]
    dsimp only
    rw [skipWs_cons_neg _ (by decide)]
    dsimp only
    rw [if_pos (by decide : (':' : Char) = ':')]
    rw [rtV fuel v _ hv (by simp only [sizeFlds] at hf; omega)
      (by simp [headNotDigit])]
    dsimp only
    rw [skipWs_cons_neg _ (by decide)]
    dsimp only
    rw [if_pos (by decide : (',' : Char) = ',')]
    rw [rtFlds fuel k2 v2 t' rest ht
      (by simp only [sizeFlds] at hf ⊢; omega)]
    rfl
termination_by fuel => fuel

end

/-- The json.loads model decodes a canonical serialization of a safe value to
exactly that value. -/
theorem jsonLoads_serV {v : JVal} (hs : safeV v = true) :
    jsonLoads (String.mk (serV v)) = some v := by
  unfold jsonLoads
  have hdata : (String.mk (serV v)).data = serV v := rfl
  rw [hdata]
  have hfuel : sizeJ v ≤ (serV v).length + 1 := le_trans (sizeJ_le v) (by omega)
  have hrt := rtV ((serV v).length + 1) v [] hs hfuel (by simp [headNotDigit])
  rw [List.append_nil] at hrt
  rw [hrt]
  simp [skipWs]

/-! ### Pipeline steps are the identity on serialized arrays -/

theorem okChar_ne {c : Char} (h : safeChar c = true ∨ structChar c = true) :
    ¬(c = btick) ∧ ¬(c = '\x27') := by
  constructor <;> intro hc <;> subst hc <;> rcases h with h | h
  · exact absurd h (by decide)
  · exact absurd h (by decide)
  · exact absurd h (by decide)
  · exact absurd h (by decide)

theorem btick_not_mem_serV {v : JVal} (hv : safeV v = true) : btick ∉ serV v :=
  fun hm => (okChar_ne (serV_mem v hv _ hm)).1 rfl

theorem squote_not_mem_serV {v : JVal} (hv : safeV v = true) : '\x27' ∉ serV v :=
  fun hm => (okChar_ne (serV_mem v hv _ hm)).2 rfl

theorem safeV_jarr_of_arr {xs : List JVal} (hs : safeArr xs = true) :
    safeV (.jarr xs) = true := by
  simpa [safeV] using hs

theorem tryParse_serV (xs : List JVal) (hs : safeArr xs = true)
    (ho : xs.all isObjB = true) :
    tryParse (String.mk (serV (.jarr xs))) = some xs := by
  have hsafe : safeV (.jarr xs) = true := safeV_jarr_of_arr hs
  have hshape : serV (.jarr xs) = '[' :: serElemsL xs ++ [']'] := rfl
  unfold tryParse
  dsimp only
  have hstrip : pyStrip (serV (.jarr xs)) = serV (.jarr xs) := by
    rw [hshape]
    exact pyStrip_sandwich _ (by decide) (by decide)
  rw [hstrip, cleanFences_eq_self (btick_not_mem_serV hsafe)]
  rw [hshape, extract_sandwich, ← hshape]
  rw [jsonLoads_serV hsafe]
  simp [ho]

/-! ### The single-quoted serialization and the quote repair -/

theorem okSQChar_ne {c : Char} (h : safeChar c = true ∨ structSQChar c = true) :
    ¬(c = btick) ∧ ¬(c = '"') := by
  constructor <;> intro hc <;> subst hc <;> rcases h with h | h
  · exact absurd h (by decide)
  · exact absurd h (by decide)
  · exact absurd h (by decide)
  · exact absurd h (by decide)

mutual

theorem serSQ_mem : ∀ (v : JVal), safeV v = true →
    ∀ c ∈ serSQ v, safeChar c = true ∨ structSQChar c = true
  | .jnull, _ => by
    intro c hc
    simp only [serSQ] at hc
    fin_cases hc <;> exact .inr (by decide)
  | .jbool true, _ => by
    intro c hc
    simp only [serSQ] at hc
    fin_cases hc <;> exact .inr (by decide)
  | .jbool false, _ => by
    intro c hc
    simp only [serSQ] at hc
    fin_cases hc <;> exact .inr (by decide)
  | .jnum n, _ => by
    intro c hc
    rcases intChars_mem n c hc with hd | rfl
    · exact .inr (by simp [structSQChar, hd])
    · exact .inr (by decide)
  | .jstr s, hs => by
    intro c hc
    simp only [serSQ, List.cons_append] at hc
    rcases List.mem_cons.mp hc with rfl | hc2
    · exact .inr (by decide)
    rcases List.mem_append.mp hc2 with hc3 | hc4
    · exact .inl (safeV_jstr hs c hc3)
    · rw [List.mem_singleton] at hc4
      subst hc4
      exact .inr (by decide)
  | .jarr xs, hs => by
    intro c hc
    simp only [serSQ] at hc
    rcases List.mem_cons.mp hc with rfl | hc2
    · exact .inr (by decide)
    rcases List.mem_append.mp hc2 with hc3 | hc4
    · exact serSQElems_mem xs (safeV_jarr hs) c hc3
    · rw [List.mem_singleton] at hc4
      subst hc4
      exact .inr (by decide)
  | .jobj fs, hs => by
    intro c hc
    simp only [serSQ] at hc
    rcases List.mem_cons.mp hc with rfl | hc2
    · exact .inr (by decide)
    rcases List.mem_append.mp hc2 with hc3 | hc4
    · exact serSQFlds_mem fs (safeV_jobj hs) c hc3
    · rw [List.mem_singleton] at hc4
      subst hc4
      exact .inr (by decide)
termination_by v => sizeOf v

theorem serSQElems_mem : ∀ (xs : List JVal), safeArr xs = true →
    ∀ c ∈ serSQElems xs, safeChar c = true ∨ structSQChar c = true
  | [], _ => by
    intro c hc
    simp [serSQElems] at hc
  | [v], hs => by
    intro c hc
    exact serSQ_mem v (safeArr_cons hs).1 c (by simpa [serSQElems] using hc)
  | v :: w :: t, hs => by
    intro c hc
    simp only [serSQElems] at hc
    rcases List.mem_append.mp hc with hc2 | hc2
    · exact serSQ_mem v (safeArr_cons hs).1 c hc2
    rcases List.mem_cons.mp hc2 with rfl | hc3
    · exact .inr (by decide)
    · exact serSQElems_mem (w :: t) (safeArr_cons hs).2 c hc3
termination_by xs => sizeOf xs

theorem serSQFlds_mem : ∀ (fs : List (String × JVal)), safeFlds fs = true →
    ∀ c ∈ serSQFlds fs, safeChar c = true ∨ structSQChar c = true
  | [], _ => by
    intro c hc
    simp [serSQFlds] at hc
  | [(k, v)], hs => by
    intro c hc
    obtain ⟨hk, hv, _⟩ := safeFlds_cons hs
    simp only [serSQFlds] at hc
    rcases List.mem_cons.mp hc with rfl | hc2
    · exact .inr (by decide)
    rcases List.mem_append.mp hc2 with hc3 | hc4
    · exact .inl (safeStr_chars hk c hc3)
    rcases List.mem_cons.mp hc4 with rfl | hc5
    · exact .inr (by decide)
    rcases List.mem_cons.mp hc5 with rfl | hc6
    · exact .inr (by decide)
    · exact serSQ_mem v hv c hc6
  | (k, v) :: f2 :: t, hs => by
    intro c hc
    obtain ⟨hk, hv, ht⟩ := safeFlds_cons hs
    simp only [serSQFlds] at hc
    rcases List.mem_append.mp hc with hc2 | hc2
    · rcases List.mem_cons.mp hc2 with rfl | hc3
      · exact .inr (by decide)
      rcases List.mem_append.mp hc3 with hc4 | hc5
      · exact .inl (safeStr_chars hk c hc4)
      rcases List.mem_cons.mp hc5 with rfl | hc6
      · exact .inr (by decide)
      rcases List.mem_cons.mp hc6 with rfl | hc7
      · exact .inr (by decide)
      · exact serSQ_mem v hv c hc7
    · rcases List.mem_cons.mp hc2 with rfl | hc3
      · exact .inr (by decide)
      · exact serSQFlds_mem (f2 :: t) ht c hc3
termination_by fs => sizeOf fs

end

theorem btick_not_mem_serSQ {v : JVal} (hv : safeV v = true) : btick ∉ serSQ v :=
  fun hm => (okSQChar_ne (serSQ_mem v hv _ hm)).1 rfl

theorem dquote_not_mem_serSQ {v : JVal} (hv : safeV v = true) : '"' ∉ serSQ v :=
  fun hm => (okSQChar_ne (serSQ_mem v hv _ hm)).2 rfl

mutual

theorem hasStr_squote_mem : ∀ (v : JVal), hasStrV v = true → '\x27' ∈ serSQ v
  | .jnull, h => by simp [hasStrV] at h
  | .jbool b, h => by simp [hasStrV] at h
  | .jnum n, h => by simp [hasStrV] at h
  | .jstr s, _ => by simp [serSQ]
  | .jarr xs, h => by
    have hm := hasStr_squote_mem_elems xs (by simpa [hasStrV] using h)
    simp only [serSQ]
    exact List.mem_cons_of_mem _ (List.mem_append_left _ hm)
  | .jobj fs, h => by
    cases fs with
    | nil => simp [hasStrV] at h
    | cons f t =>
      rcases f with ⟨k, v⟩
      simp only [serSQ]
      refine List.mem_cons_of_mem _ (List.mem_append_left _ ?_)
      cases t with
      | nil => simp [serSQFlds]
      | cons f2 t' => simp [serSQFlds]
termination_by v => sizeOf v

theorem hasStr_squote_mem_elems : ∀ (xs : List JVal), hasStrArr xs = true →
    '\x27' ∈ serSQElems xs
  | [], h => by simp [hasStrArr] at h
  | [v], h => by
    have hv : hasStrV v = true := by simpa [hasStrArr] using h
    simpa [serSQElems] using hasStr_squote_mem v hv
  | v :: w :: t, h => by
    have h2 : hasStrV v = true ∨ hasStrArr (w :: t) = true := by
      simpa [hasStrArr, Bool.or_eq_true] using h
    simp only [serSQElems]
    rcases h2 with h2 | h2
    · exact List.mem_append_left _ (hasStr_squote_mem v h2)
    · exact List.mem_append_right _
        (List.mem_cons_of_mem _ (hasStr_squote_mem_elems (w :: t) h2))
termination_by xs => sizeOf xs

end

theorem map_sq2dq_nc : ∀ (l : List Char), (∀ c ∈ l, ¬(c = '\x27')) →
    l.map sq2dq = l
  | [], _ => rfl
  | c :: t, h => by
    have hc : sq2dq c = c := by simp [sq2dq, h c (by simp)]
    simp only [List.map_cons, hc]
    rw [map_sq2dq_nc t (fun d hd => h d (by simp [hd]))]

theorem map_sq2dq_intChars (n : Int) : (intChars n).map sq2dq = intChars n := by
  apply map_sq2dq_nc
  intro c hc
  rcases intChars_mem n c hc with hd | rfl
  · exact (digit_not_special hd).2.2.2.2.2.2.2.2.2.2.2.2.2.2
  · decide

mutual

theorem map_serSQ : ∀ (v : JVal), safeV v = true → (serSQ v).map sq2dq = serV v
  | .jnull, _ => rfl
  | .jbool true, _ => rfl
  | .jbool false, _ => rfl
  | .jnum n, _ => map_sq2dq_intChars n
  | .jstr s, hs => by
    show ('\x27' :: s.data ++ ['\x27']).map sq2dq = '"' :: s.data ++ ['"']
    simp only [List.cons_append, List.map_cons, List.map_append]
    rw [map_sq2dq_nc s.data
      (fun c hc => (safeChar_spec (safeV_jstr hs c hc)).2.1)]
    rfl
  | .jarr xs, hs => by
    show ('[' :: serSQElems xs ++ [']']).map sq2dq = '[' :: serElemsL xs ++ [']']
    simp only [List.cons_append, List.map_cons, List.map_append]
    rw [map_serSQElems xs (safeV_jarr hs)]
    rfl
  | .jobj fs, hs => by
    show ('\x7b' :: serSQFlds fs ++ ['\x7d']).map sq2dq =
      '\x7b' :: serFldsL fs ++ ['\x7d']
    simp only [List.cons_append, List.map_cons, List.map_append]
    rw [map_serSQFlds fs (safeV_jobj hs)]
    rfl
termination_by v => sizeOf v

theorem map_serSQElems : ∀ (xs : List JVal), safeArr xs = true →
    (serSQElems xs).map sq2dq = serElemsL xs
  | [], _ => rfl
  | [v], hs => map_serSQ v (safeArr_cons hs).1
  | v :: w :: t, hs => by
    show (serSQ v ++ ',' :: serSQElems (w :: t)).map sq2dq =
      serV v ++ ',' :: serElemsL (w :: t)
    simp only [List.map_append, List.map_cons]
    rw [map_serSQ v (safeArr_cons hs).1, map_serSQElems (w :: t) (safeArr_cons hs).2]
    rfl
termination_by xs => sizeOf xs

theorem map_serSQFlds : ∀ (fs : List (String × JVal)), safeFlds fs = true →
    (serSQFlds fs).map sq2dq = serFldsL fs
  | [], _ => rfl
  | [(k, v)], hs => by
    obtain ⟨hk, hv, _⟩ := safeFlds_cons hs
    show ('\x27' :: k.data ++ '\x27' :: ':' :: serSQ v).map sq2dq =
      '"' :: k.data ++ '"' :: ':' :: serV v
    simp only [List.cons_append, List.map_cons, List.map_append]
    rw [map_sq2dq_nc k.data (fun c hc => (safeChar_spec (safeStr_chars hk c hc)).2.1),
      map_serSQ v hv]
    rfl
  | (k, v) :: f2 :: t, hs => by
    obtain ⟨hk, hv, ht⟩ := safeFlds_cons hs
    show (('\x27' :: k.data ++ '\x27' :: ':' :: serSQ v) ++
        ',' :: serSQFlds (f2 :: t)).map sq2dq =
      ('"' :: k.data ++ '"' :: ':' :: serV v) ++ ',' :: serFldsL (f2 :: t)
    simp only [List.cons_append, List.map_cons, List.map_append]
    rw [map_sq2dq_nc k.data (fun c hc => (safeChar_spec (safeStr_chars hk c hc)).2.1),
      map_serSQ v hv, map_serSQFlds (f2 :: t) ht]
    rfl
termination_by fs => sizeOf fs

end

/-! ### The trailing-comma deletion is the identity on serialized values -/

theorem commasTight_cons_ne {c : Char} (l : List Char) (h : ¬(c = ',')) :
    commasTight (c :: l) = commasTight l := by
  simp [commasTight, h]

theorem commasTight_append_nc : ∀ (a b : List Char), (∀ c ∈ a, ¬(c = ',')) →
    commasTight (a ++ b) = commasTight b
  | [], _, _ => rfl
  | c :: a', b, h => by
    rw [List.cons_append, commasTight_cons_ne _ (h c (by simp))]
    exact commasTight_append_nc a' b (fun d hd => h d (by simp [hd]))

theorem commasTight_comma_cons {d : Char} (z : List Char)
    (h1 : ¬(d = ']')) (h2 : ¬(d = '\x7d')) (h3 : isPyWs d = false) :
    commasTight (',' :: d :: z) = commasTight (d :: z) := by
  simp [commasTight, h1, h2, h3]

mutual

theorem commasTight_serV : ∀ (v : JVal) (rest : List Char), safeV v = true →
    commasTight rest = true → commasTight (serV v ++ rest) = true
  | .jnull, rest, _, hr => by
    rw [show serV .jnull = ['n', 'u', 'l', 'l'] from rfl,
      commasTight_append_nc _ _ (by intro c hc; fin_cases hc <;> decide)]
    exact hr
  | .jbool true, rest, _, hr => by
    rw [show serV (.jbool true) = ['t', 'r', 'u', 'e'] from rfl,
      commasTight_append_nc _ _ (by intro c hc; fin_cases hc <;> decide)]
    exact hr
  | .jbool false, rest, _, hr => by
    rw [show serV (.jbool false) = ['f', 'a', 'l', 's', 'e'] from rfl,
      commasTight_append_nc _ _ (by intro c hc; fin_cases hc <;> decide)]
    exact hr
  | .jnum n, rest, _, hr => by
    rw [show serV (.jnum n) = intChars n from rfl,
      commasTight_append_nc _ _ ?_]
    · exact hr
    · intro c hc
      rcases intChars_mem n c hc with h | rfl
      · exact (digit_not_special h).2.2.2.2.2.2.2.2.2.1
      · decide
  | .jstr s, rest, hs, hr => by
    have hnc : ∀ c ∈ serV (.jstr s), ¬(c = ',') := by
      intro c hc
      simp only [serV, List.cons_append] at hc
      rcases List.mem_cons.mp hc with rfl | hc2
      · decide
      rcases List.mem_append.mp hc2 with hc3 | hc4
      · exact (safeChar_spec (safeV_jstr hs c hc3)).2.2.2.2.2.2.2.2.1
      · rw [List.mem_singleton] at hc4
        subst hc4
        decide
    rw [commasTight_append_nc _ _ hnc]
    exact hr
  | .jarr [], rest, _, hr => by
    rw [show serV (.jarr []) = ['[', ']'] from rfl,
      commasTight_append_nc _ _ (by intro c hc; fin_cases hc <;> decide)]
    exact hr
  | .jarr (x :: t), rest, hs, hr => by
    have hsh : serV (.jarr (x :: t)) ++ rest =
        '[' :: (serElemsL (x :: t) ++ (']' :: rest)) := by
      simp [serV]
    rw [hsh, commasTight_cons_ne _ (by decide)]
    exact commasTight_serElems x t (']' :: rest) (safeV_jarr hs)
      (by rw [commasTight_cons_ne _ (by decide)]; exact hr)
  | .jobj [], rest, _, hr => by
    rw [show serV (.jobj []) = ['\x7b', '\x7d'] from rfl,
      commasTight_append_nc _ _ (by intro c hc; fin_cases hc <;> decide)]
    exact hr
  | .jobj ((k, v) :: t), rest, hs, hr => by
    have hsh : serV (.jobj ((k, v) :: t)) ++ rest =
        '\x7b' :: (serFldsL ((k, v) :: t) ++ ('\x7d' :: rest)) := by
      simp [serV]
    rw [hsh, commasTight_cons_ne _ (by decide)]
    exact commasTight_serFlds k v t ('\x7d' :: rest) (safeV_jobj hs)
      (by rw [commasTight_cons_ne _ (by decide)]; exact hr)
termination_by v => sizeOf v

theorem commasTight_serElems : ∀ (x : JVal) (t : List JVal) (rest : List Char),
    safeArr (x :: t) = true → commasTight rest = true →
    commasTight (serElemsL (x :: t) ++ rest) = true
  | x, [], rest, hs, hr => by
    rw [show serElemsL [x] = serV x from rfl]
    exact commasTight_serV x rest (safeArr_cons hs).1 hr
  | x, w :: t', rest, hs, hr => by
    have hsh : serElemsL (x :: w :: t') ++ rest =
        serV x ++ (',' :: (serElemsL (w :: t') ++ rest)) := by
      simp [serElemsL]
    rw [hsh]
    apply commasTight_serV x _ (safeArr_cons hs).1
    obtain ⟨c, z, hz, _, hbr, hbrc, hpw⟩ := serElemsL_cons_shape w t' rest
    rw [hz, commasTight_comma_cons _ hbr hbrc hpw, ← hz]
    exact commasTight_serElems w t' rest (safeArr_cons hs).2 hr
termination_by x t => sizeOf (x :: t)

theorem commasTight_serFlds : ∀ (k : String) (v : JVal) (t : List (String × JVal))
    (rest : List Char), safeFlds ((k, v) :: t) = true → commasTight rest = true →
    commasTight (serFldsL ((k, v) :: t) ++ rest) = true
  | k, v, [], rest, hs, hr => by
    obtain ⟨hk, hv, _⟩ := safeFlds_cons hs
    have hsh : serFldsL [(k, v)] ++ rest =
        '"' :: (k.data ++ ('"' :: ':' :: (serV v ++ rest))) := by
      simp [serFldsL]
    rw [hsh, commasTight_cons_ne _ (by decide),
      commasTight_append_nc k.data _
        (fun c hc => (safeChar_spec (safeStr_chars hk c hc)).2.2.2.2.2.2.2.2.1),
      commasTight_cons_ne _ (by decide), commasTight_cons_ne _ (by decide)]
    exact commasTight_serV v rest hv hr
  | k, v, (k2, v2) :: t', rest, hs, hr => by
    obtain ⟨hk, hv, ht⟩ := safeFlds_cons hs
    have hsh : serFldsL ((k, v) :: (k2, v2) :: t') ++ rest =
        '"' :: (k.data ++ ('"' :: ':' :: (serV v ++
          (',' :: (serFldsL ((k2, v2) :: t') ++ rest))))) := by
      simp [serFldsL]
    rw [hsh, commasTight_cons_ne _ (by decide),
      commasTight_append_nc k.data _
        (fun c hc => (safeChar_spec (safeStr_chars hk c hc)).2.2.2.2.2.2.2.2.1),
      commasTight_cons_ne _ (by decide), commasTight_cons_ne _ (by decide)]
    apply commasTight_serV v _ hv
    have hq : ∃ z, serFldsL ((k2, v2) :: t') ++ rest = '"' :: z :=
      serFldsL_cons_shape k2 v2 t' rest
    obtain ⟨z, hz⟩ := hq
    rw [hz, commasTight_comma_cons _ (by decide) (by decide) (by decide), ← hz]
    exact commasTight_serFlds k2 v2 t' rest ht hr
termination_by k v t => sizeOf ((k, v) :: t)

end

theorem commasTight_cons_elim {c : Char} {l : List Char}
    (h : commasTight (c :: l) = true) : commasTight l = true := by
  simp only [commasTight, Bool.and_eq_true] at h
  exact h.2

theorem rstripCommaSubGo_id : ∀ (fuel : Nat) (l : List Char),
    commasTight l = true → rstripCommaSubGo fuel l = l
  | 0, l, _ => by cases l <;> rfl
  | _ + 1, [], _ => rfl
  | fuel + 1, c :: rest, h => by
    have hrest : commasTight rest = true := commasTight_cons_elim h
    by_cases hc : c = ','
    · subst hc
      cases rest with
      | nil => simp [commasTight] at h
      | cons d z =>
        have hd : ¬(d = ']') ∧ ¬(d = '\x7d') ∧ isPyWs d = false := by
          simp only [commasTight, Bool.and_eq_true, if_pos] at h
          have h1 := h.1
          simp only [Bool.not_eq_true', Bool.or_eq_false_iff,
            decide_eq_false_iff_not] at h1
          exact ⟨h1.1.1, h1.1.2, h1.2⟩
        have hdw : (d :: z).dropWhile isPyWs = d :: z := by
          simp [List.dropWhile_cons, hd.2.2]
        simp only [rstripCommaSubGo, hdw, if_true]
        rw [if_neg (by rw [not_or]; exact ⟨hd.1, hd.2.1⟩)]
        rw [rstripCommaSubGo_id fuel (d :: z) hrest]
    · simp only [rstripCommaSubGo]
      rw [if_neg hc, rstripCommaSubGo_id fuel rest hrest]

theorem rstripCommaSub_id {l : List Char} (h : commasTight l = true) :
    rstripCommaSub l = l :=
  rstripCommaSubGo_id _ _ h

theorem commasTight_comma_head {d : Char} {z : List Char}
    (h : commasTight (',' :: d :: z) = true) :
    ¬(d = ']') ∧ ¬(d = '\x7d') ∧ isPyWs d = false ∧ commasTight (d :: z) = true := by
  simp only [commasTight, Bool.and_eq_true, if_pos] at h
  have h1 := h.1
  simp only [Bool.not_eq_true', Bool.or_eq_false_iff, decide_eq_false_iff_not] at h1
  refine ⟨h1.1.1, h1.1.2, h1.2, ?_⟩
  simp only [commasTight, Bool.and_eq_true]
  exact h.2

theorem rstripCommaSubGo_final : ∀ (fuel : Nat) (A : List Char),
    commasTight (A ++ [']']) = true → A.length + 2 ≤ fuel →
    rstripCommaSubGo fuel (A ++ [',', ']']) = A ++ [']']
  | 0, A, _, hf => by simp at hf
  | fuel + 1, [], _, _ => by
    show rstripCommaSubGo (fuel + 1) [',', ']'] = [']']
    cases fuel <;> rfl
  | fuel + 1, c :: A', h, hf => by
    by_cases hc : c = ','
    · subst hc
      cases A' with
      | nil => simp [commasTight] at h
      | cons d z =>
        simp only [List.cons_append] at h ⊢
        obtain ⟨hd1, hd2, hd3, _⟩ := commasTight_comma_head h
        have hdw : (d :: (z ++ [',', ']'])).dropWhile isPyWs =
            d :: (z ++ [',', ']']) := by
          simp [List.dropWhile_cons, hd3]
        show rstripCommaSubGo (fuel + 1) (',' :: d :: (z ++ [',', ']'])) = _
        simp only [rstripCommaSubGo]
        rw [show (d :: (z ++ [',', ']'])).dropWhile isPyWs =
          d :: (z ++ [',', ']']) from hdw]
        simp only [if_true]
        rw [if_neg (by rw [not_or]; exact ⟨hd1, hd2⟩)]
        have hrec := rstripCommaSubGo_final fuel (d :: z)
          (commasTight_cons_elim (l := d :: z ++ [']']) (by simpa using h))
          (by simp only [List.length_cons] at hf ⊢; omega)
        simp only [List.cons_append] at hrec
        rw [hrec]
    · simp only [List.cons_append]
      show rstripCommaSubGo (fuel + 1) (c :: (A' ++ [',', ']'])) = _
      simp only [rstripCommaSubGo]
      rw [if_neg hc]
      have hA : commasTight (A' ++ [']']) = true :=
        commasTight_cons_elim (c := c) (by simpa using h)
      rw [rstripCommaSubGo_final fuel A' hA
        (by simp only [List.length_cons] at hf; omega)]

theorem repair_sq_aux (xs : List JVal) (M : List Char)
    (hmemM : ∀ c ∈ M, safeChar c = true ∨ structSQChar c = true)
    (hsqM : '\x27' ∈ M)
    (hrep : rstripCommaSub ('[' :: M.map sq2dq ++ [']']) = serV (.jarr xs)) :
    repairJsonCandidate (String.mk ('[' :: M ++ [']'])) =
      String.mk (serV (.jarr xs)) := by
  have hmem : ∀ c ∈ '[' :: M ++ [']'], safeChar c = true ∨ structSQChar c = true := by
    intro c hc
    rcases List.mem_cons.mp hc with rfl | hc2
    · exact .inr (by decide)
    rcases List.mem_append.mp hc2 with hc3 | hc4
    · exact hmemM c hc3
    · rw [List.mem_singleton] at hc4
      subst hc4
      exact .inr (by decide)
  have hbt : btick ∉ '[' :: M ++ [']'] :=
    fun hm => (okSQChar_ne (hmem _ hm)).1 rfl
  have hdq : '"' ∉ '[' :: M ++ [']'] :=
    fun hm => (okSQChar_ne (hmem _ hm)).2 rfl
  have hsq : '\x27' ∈ '[' :: M ++ [']'] :=
    List.mem_cons_of_mem _ (List.mem_append_left _ hsqM)
  have hmap : ('[' :: M ++ [']']).map sq2dq = '[' :: M.map sq2dq ++ [']'] := by
    simp only [List.cons_append, List.map_cons, List.map_append]
    rfl
  have hcnt : List.count '"' ('[' :: M ++ [']']) <
      List.count '\x27' ('[' :: M ++ [']']) := by
    rw [List.count_eq_zero.mpr hdq]
    exact List.count_pos_iff.mpr hsq
  have hserShape : serV (.jarr xs) = '[' :: serElemsL xs ++ [']'] := rfl
  have hwrap : ¬((('[' :: serElemsL xs ++ [']']) : List Char).head? = some '\x7b' ∧
      (('[' :: serElemsL xs ++ [']']) : List Char).getLast? = some '\x7d') := by
    intro hcontra
    have h1 := hcontra.1
    simp only [List.cons_append, List.head?_cons, Option.some.injEq] at h1
    exact absurd h1 (by decide)
  unfold repairJsonCandidate
  dsimp only
  rw [pyStrip_sandwich _ (by decide) (by decide),
    cleanFences_eq_self hbt, extract_sandwich, if_pos hcnt]
  rw [show pyReplaceChar '\x27' '"' ('[' :: M ++ [']']) =
    ('[' :: M ++ [']']).map sq2dq from rfl]
  rw [hmap, hrep, hserShape, pyStrip_sandwich _ (by decide) (by decide),
    if_neg hwrap]

/-- The quote repair turns the single-quoted rendering of an array of safe
values (optionally ending with a trailing comma before the closing bracket)
into exactly its double-quoted rendering. -/
theorem repair_sq (xs : List JVal) (tc : Bool) (hs : safeArr xs = true)
    (hstr : hasStrArr xs = true) :
    repairJsonCandidate
        (String.mk ('[' :: serSQElems xs ++ (if tc then [',', ']'] else [']']))) =
      String.mk (serV (.jarr xs)) := by
  have hsafe : safeV (.jarr xs) = true := safeV_jarr_of_arr hs
  have hct : commasTight (('[' :: serElemsL xs) ++ [']']) = true := by
    have := commasTight_serV (.jarr xs) [] hsafe rfl
    simpa [serV] using this
  cases tc with
  | false =>
    rw [if_neg (by decide)]
    exact repair_sq_aux xs (serSQElems xs) (serSQElems_mem xs hs)
      (hasStr_squote_mem_elems xs hstr)
      (by
        rw [map_serSQElems xs hs]
        have hsh : '[' :: serElemsL xs ++ [']'] = serV (.jarr xs) := rfl
        rw [hsh]
        exact rstripCommaSub_id (by rw [← hsh]; simpa using hct))
  | true =>
    rw [if_pos rfl,
      show ('[' :: serSQElems xs) ++ [',', ']'] =
        ('[' :: (serSQElems xs ++ [','])) ++ [']'] from by simp]
    exact repair_sq_aux xs (serSQElems xs ++ [','])
      (by
        intro c hc
        rcases List.mem_append.mp hc with hc1 | hc1
        · exact serSQElems_mem xs hs c hc1
        · rw [List.mem_singleton] at hc1
          subst hc1
          exact .inr (by decide))
      (List.mem_append_left _ (hasStr_squote_mem_elems xs hstr))
      (by
        rw [List.map_append, map_serSQElems xs hs,
          show ([','] : List Char).map sq2dq = [','] from rfl,
          show '[' :: (serElemsL xs ++ [',']) ++ [']'] =
            ('[' :: serElemsL xs) ++ [',', ']'] from by simp]
        unfold rstripCommaSub
        rw [rstripCommaSubGo_final _ _ hct (by simp)]
        rfl)

theorem lbracket_not_mem_serV_atom : ∀ {v : JVal}, atomV v = true →
    safeV v = true → '[' ∉ serV v := by
  intro v ha hv hm
  cases v with
  | jnull =>
    rw [show serV .jnull = ['n', 'u', 'l', 'l'] from rfl] at hm
    exact absurd hm (by decide)
  | jbool b =>
    cases b
    · rw [show serV (.jbool false) = ['f', 'a', 'l', 's', 'e'] from rfl] at hm
      exact absurd hm (by decide)
    · rw [show serV (.jbool true) = ['t', 'r', 'u', 'e'] from rfl] at hm
      exact absurd hm (by decide)
  | jnum n =>
    rcases intChars_mem n _ hm with hd | hd
    · exact absurd hd (by decide)
    · exact absurd hd (by decide)
  | jstr s =>
    rw [show serV (.jstr s) = '"' :: s.data ++ ['"'] from rfl] at hm
    rcases List.mem_cons.mp hm with he | hm2
    · exact absurd he (by decide)
    rcases List.mem_append.mp hm2 with hc | hc
    · exact (safeChar_spec
        (List.all_eq_true.mp (by simpa [safeV, safeStr] using hv) _ hc)).2.2.2.2.1 rfl
    · rw [List.mem_singleton] at hc
      exact absurd hc (by decide)
  | jarr xs => simp [atomV] at ha
  | jobj fs => simp [atomV] at ha

theorem lbracket_not_mem_serFldsL : ∀ (fs : List (String × JVal)),
    safeFlds fs = true → flatFlds fs = true → '[' ∉ serFldsL fs
  | [], _, _ => by simp [serFldsL]
  | [(k, v)], hs, hf => by
    obtain ⟨hk, hv, _⟩ := safeFlds_cons hs
    have hav : atomV v = true := by simpa [flatFlds] using hf
    intro hm
    rw [show serFldsL [(k, v)] = '"' :: k.data ++ '"' :: ':' :: serV v from rfl] at hm
    rcases List.mem_cons.mp hm with he | hm2
    · exact absurd he (by decide)
    rcases List.mem_append.mp hm2 with hc | hc
    · exact (safeChar_spec
        (List.all_eq_true.mp (by simpa [safeStr] using hk) _ hc)).2.2.2.2.1 rfl
    · rcases List.mem_cons.mp hc with he | hc2
      · exact absurd he (by decide)
      rcases List.mem_cons.mp hc2 with he | hc3
      · exact absurd he (by decide)
      · exact lbracket_not_mem_serV_atom hav hv hc3
  | (k, v) :: w :: t, hs, hf => by
    obtain ⟨hk, hv, ht⟩ := safeFlds_cons hs
    have hfl : atomV v = true ∧ flatFlds (w :: t) = true := by
      simpa [flatFlds, Bool.and_eq_true] using hf
    intro hm
    rw [show serFldsL ((k, v) :: w :: t) =
      ('"' :: k.data ++ '"' :: ':' :: serV v) ++ ',' :: serFldsL (w :: t) from
        rfl] at hm
    rcases List.mem_append.mp hm with hc | hc
    · rcases List.mem_cons.mp hc with he | hc2
      · exact absurd he (by decide)
      rcases List.mem_append.mp hc2 with hc3 | hc3
      · exact (safeChar_spec
          (List.all_eq_true.mp (by simpa [safeStr] using hk) _ hc3)).2.2.2.2.1 rfl
      · rcases List.mem_cons.mp hc3 with he | hc4
        · exact absurd he (by decide)
        rcases List.mem_cons.mp hc4 with he | hc5
        · exact absurd he (by decide)
        · exact lbracket_not_mem_serV_atom hfl.1 hv hc5
    · rcases List.mem_cons.mp hc with he | hc2
      · exact absurd he (by decide)
      · exact lbracket_not_mem_serFldsL (w :: t) ht hfl.2 hc2

theorem repair_bareObj (fs : List (String × JVal)) (hv : safeV (.jobj fs) = true)
    (hf : flatFlds fs = true) :
    repairJsonCandidate (String.mk (serV (.jobj fs))) =
      String.mk (serV (.jarr [.jobj fs])) := by
  have hshape : serV (.jobj fs) = '\x7b' :: serFldsL fs ++ ['\x7d'] := rfl
  have hnlb : '[' ∉ ('\x7b' :: serFldsL fs ++ ['\x7d'] : List Char) := by
    intro hm
    rcases List.mem_cons.mp hm with he | hm2
    · exact absurd he (by decide)
    rcases List.mem_append.mp hm2 with hc | hc
    · exact lbracket_not_mem_serFldsL fs (safeV_jobj hv) hf hc
    · rw [List.mem_singleton] at hc
      exact absurd hc (by decide)
  have hext : extractJsonArray ('\x7b' :: serFldsL fs ++ ['\x7d']) =
      '\x7b' :: serFldsL fs ++ ['\x7d'] := by
    unfold extractJsonArray
    rw [pyFind_eq_none hnlb]
  have hcnt : ¬(List.count '"' ('\x7b' :: serFldsL fs ++ ['\x7d']) <
      List.count '\x27' ('\x7b' :: serFldsL fs ++ ['\x7d'])) := by
    have h0 : List.count '\x27' ('\x7b' :: serFldsL fs ++ ['\x7d']) = 0 :=
      List.count_eq_zero.mpr (hshape ▸ squote_not_mem_serV hv)
    rw [h0]
    omega
  have hct : commasTight ('\x7b' :: serFldsL fs ++ ['\x7d']) = true := by
    have := commasTight_serV (.jobj fs) [] hv rfl
    rw [hshape] at this
    simpa using this
  have hwrap : (('\x7b' :: serFldsL fs ++ ['\x7d']) : List Char).head? = some '\x7b' ∧
      (('\x7b' :: serFldsL fs ++ ['\x7d']) : List Char).getLast? = some '\x7d' := by
    constructor
    · rfl
    · exact List.getLast?_concat _
  unfold repairJsonCandidate
  dsimp only
  rw [hshape, pyStrip_sandwich _ (by decide) (by decide),
    cleanFences_eq_self (hshape ▸ btick_not_mem_serV hv), hext, if_neg hcnt,
    rstripCommaSub_id hct, pyStrip_sandwich _ (by decide) (by decide),
    if_pos hwrap]
  rfl

/-! ### Scan invariant and grading bounds -/

theorem ppoStep_all (st : Int × List Char × List JVal) (ch : Char)
    (h : st.2.2.all isObjB = true) : ((ppoStep st ch).2.2).all isObjB = true := by
  obtain ⟨lvl, buf, objs⟩ := st
  simp only [ppoStep]
  by_cases h1 : ch = '\x7b'
  · rw [if_pos h1]
    exact h
  rw [if_neg h1]
  by_cases h2 : ch = '\x7d'
  · rw [if_pos h2]
    by_cases h3 : lvl - 1 = 0
    · rw [if_pos h3]
      cases hj : jsonLoads (String.mk (rstripCommas (pyStrip (buf ++ [ch])))) with
      | none => exact h
      | some v =>
        dsimp only
        by_cases h4 : isObjB v = true
        · rw [if_pos h4]
          simp only [List.all_append]
          simp [h, h4]
        · rw [if_neg h4]
          exact h
    · rw [if_neg h3]
      exact h
  · rw [if_neg h2]
    exact h

theorem ppoStepGen_all (st : Int × List Char × List JVal) (ch : Char)
    (h : st.2.2.all isObjB = true) : ((ppoStepGen st ch).2.2).all isObjB = true := by
  obtain ⟨lvl, buf, objs⟩ := st
  simp only [ppoStepGen]
  by_cases h1 : ch = '\x7b'
  · rw [if_pos h1]
    exact h
  rw [if_neg h1]
  by_cases h2 : ch = '\x7d'
  · rw [if_pos h2]
    by_cases h3 : lvl - 1 = 0
    · rw [if_pos h3]
      cases hj : jsonLoads (String.mk (rstripCommas (pyStrip (buf ++ [ch])))) with
      | none => exact h
      | some v =>
        dsimp only
        by_cases h4 : isObjB v = true
        · rw [if_pos h4]
          simp only [List.all_append]
          simp [h, h4]
        · rw [if_neg h4]
          exact h
    · rw [if_neg h3]
      exact h
  · rw [if_neg h2]
    exact h

theorem foldl_ppoStep_all : ∀ (l : List Char) (st : Int × List Char × List JVal),
    st.2.2.all isObjB = true → ((l.foldl ppoStep st).2.2).all isObjB = true
  | [], _, h => h
  | c :: t, st, h => foldl_ppoStep_all t _ (ppoStep_all st c h)

theorem foldl_ppoStepGen_all : ∀ (l : List Char) (st : Int × List Char × List JVal),
    st.2.2.all isObjB = true → ((l.foldl ppoStepGen st).2.2).all isObjB = true
  | [], _, h => h
  | c :: t, st, h => foldl_ppoStepGen_all t _ (ppoStepGen_all st c h)

theorem parsePartialObjects_all (raw : String) :
    (parsePartialObjects raw).all isObjB = true := by
  unfold parsePartialObjects
  exact foldl_ppoStep_all _ _ rfl

theorem partialObjectsGen_all (raw : String) :
    (partialObjectsGen raw).all isObjB = true := by
  unfold partialObjectsGen
  exact foldl_ppoStepGen_all _ _ rfl

theorem tryParse_sound (raw : String) :
    ((tryParse raw).getD []).all isObjB = true := by
  unfold tryParse
  dsimp only
  cases hj : jsonLoads (String.mk (extractJsonArray (cleanFences (pyStrip raw.data)))) with
  | none => rfl
  | some v =>
    cases v with
    | jarr xs =>
      dsimp only
      by_cases ho : xs.all isObjB = true
      · rw [if_pos ho]
        exact ho
      · rw [if_neg ho]
        rfl
    | jnull => rfl
    | jbool b => rfl
    | jnum n => rfl
    | jstr s => rfl
    | jobj fs => rfl

theorem clampMarks_bounds (m maxMarks : ℚ) (h : 0 ≤ maxMarks) :
    0 ≤ clampMarks m maxMarks ∧ clampMarks m maxMarks ≤ maxMarks :=
  ⟨le_min (le_max_left 0 m) h, min_le_right _ _⟩

theorem pyStrip_nil_of_ws {l : List Char} (h : l.all isPyWs = true) :
    pyStrip l = [] := by
  unfold pyStrip
  rw [List.dropWhile_eq_nil_iff.mpr (fun x hx => List.all_eq_true.mp h x hx)]
  rfl

/-- Whatever the continuation response holds, a partial-recovery block that
fires (a nonempty recovery short of the expected count) records exactly one
continuation request, asking for the leftover record count with the larger of
the leftover marks and that count as its budget. -/
theorem partialRecoveryStep_conts (oracle : Nat → CallResult) (expected : Nat)
    (totalMarks : Int) (raw : String) (idx : Nat) (conts : List (Nat × Int))
    (h4 : (parsePartialObjects raw).isEmpty = false)
    (h5 : (parsePartialObjects raw).length < expected) :
    (match partialRecoveryStep oracle expected totalMarks raw idx conts with
     | .inl out => out.contReqs
     | .inr p => p.2) =
      conts ++ [(expected - (parsePartialObjects raw).length,
        max (totalMarks - usedMarks (parsePartialObjects raw))
          ((expected - (parsePartialObjects raw).length : Nat) : Int))] := by
  simp only [partialRecoveryStep]
  rw [if_pos ⟨h4, h5⟩]
  cases horc : oracle (idx + 1) with
  | err e => rfl
  | ok craw =>
    dsimp only
    cases htp : tryParse craw with
    | some l =>
      dsimp only
      by_cases hle : l.isEmpty = false
      · rw [if_pos hle]
        by_cases hc1 : expected ≤ (parsePartialObjects raw ++ l).length
        · rw [if_pos hc1]
        · rw [if_neg hc1]
          by_cases hc2 : (parsePartialObjects raw).length <
              (parsePartialObjects raw ++ l).length
          · rw [if_pos hc2]
          · rw [if_neg hc2]
      · rw [if_neg hle]
    | none =>
      dsimp only
      by_cases hle : (parsePartialObjects craw).isEmpty = false
      · rw [if_pos hle]
        by_cases hc1 : expected ≤
            (parsePartialObjects raw ++ parsePartialObjects craw).length
        · rw [if_pos hc1]
        · rw [if_neg hc1]
          by_cases hc2 : (parsePartialObjects raw).length <
              (parsePartialObjects raw ++ parsePartialObjects craw).length
          · rw [if_pos hc2]
          · rw [if_neg hc2]
      · rw [if_neg hle]

/-! ### The claims -/

/-- Claim C1 (continuation combine): when the first response yields a nonempty
recovery of K < N records (strict and repaired parses having fallen short) and
the continuation response parses to exactly N − K new records, the controller
returns exactly N records, the recovered ones followed by the new ones in
order. -/
theorem c1_continuation_combine (oracle : Nat → CallResult) (N : Nat) (tm : Int)
    (retries : Nat) (raw craw : String) (recov newItems : List JVal)
    (h0 : oracle 0 = CallResult.ok raw)
    (h1 : tryParse raw = none)
    (h2 : jsonLoads (repairJsonCandidate raw) = none)
    (h3 : parsePartialObjects raw = recov)
    (h4 : recov.isEmpty = false)
    (h5 : recov.length < N)
    (h6 : oracle 1 = CallResult.ok craw)
    (h7 : tryParse craw = some newItems)
    (h8 : newItems.length = N - recov.length) :
    (call_gemini_api oracle N tm retries).result = some (recov ++ newItems) ∧
      (recov ++ newItems).length = N := by
  subst h3
  have hlen : (parsePartialObjects raw ++ newItems).length = N := by
    rw [List.length_append, h8]
    omega
  have hne : newItems.isEmpty = false := by
    cases newItems with
    | nil =>
      simp only [List.length_nil] at h8
      omega
    | cons a t => rfl
  refine ⟨?_, hlen⟩
  unfold call_gemini_api
  simp only [callGeminiGo]
  rw [h0]
  dsimp only
  rw [h1]
  dsimp only
  rw [h2]
  dsimp only
  simp only [partialRecoveryStep, Nat.zero_add]
  rw [if_pos ⟨h4, h5⟩, h6]
  dsimp only
  rw [h7]
  dsimp only
  rw [if_pos hne, if_pos (le_of_eq hlen.symm)]
  dsimp only
  rw [List.take_of_length_le (le_of_eq hlen)]

/-- Witness for C1: a truncated first response with one complete record, a
continuation with the one missing record, and the combined two-record result. -/
theorem c1_witness :
    (call_gemini_api
        (fun i => if i = 0 then CallResult.ok "[\x7b\"q\":\"a\",\"marks\":3\x7d,\x7b\"x"
          else CallResult.ok "[\x7b\"p\":\"b\",\"marks\":7\x7d]") 2 10 0).result =
      some ([JVal.jobj [("q", .jstr "a"), ("marks", .jnum 3)]] ++
        [JVal.jobj [("p", .jstr "b"), ("marks", .jnum 7)]]) ∧
      ([JVal.jobj [("q", .jstr "a"), ("marks", .jnum 3)]] ++
        [JVal.jobj [("p", .jstr "b"), ("marks", .jnum 7)]]).length = 2 :=
  c1_continuation_combine
    (fun i => if i = 0 then CallResult.ok "[\x7b\"q\":\"a\",\"marks\":3\x7d,\x7b\"x"
      else CallResult.ok "[\x7b\"p\":\"b\",\"marks\":7\x7d]")
    2 10 0
    "[\x7b\"q\":\"a\",\"marks\":3\x7d,\x7b\"x"
    "[\x7b\"p\":\"b\",\"marks\":7\x7d]"
    [JVal.jobj [("q", .jstr "a"), ("marks", .jnum 3)]]
    [JVal.jobj [("p", .jstr "b"), ("marks", .jnum 7)]]
    rfl rfl rfl rfl rfl (by decide) rfl rfl rfl

/-- Claim C2 (grading clamp): whatever the model response holds, the accepted
marks of an AI-graded question lie between 0 and the maximum marks of the
question. -/
theorem c2_grading_clamp (maxMarks : ℚ) (ans : String) (call : CallResult)
    (h : 0 ≤ maxMarks) :
    0 ≤ (gradeOne maxMarks ans call).marks ∧
      (gradeOne maxMarks ans call).marks ≤ maxMarks := by
  simp only [gradeOne]
  by_cases h0 : pyStrip ans.data = []
  · rw [if_pos h0]
    exact ⟨le_refl 0, h⟩
  rw [if_neg h0]
  cases call with
  | err e => exact ⟨le_refl 0, h⟩
  | ok t =>
    dsimp only
    split <;> split <;>
      first
        | exact clampMarks_bounds _ _ h
        | exact ⟨le_refl 0, h⟩

/-- Witness for C2: a response awarding 15 marks on a 10-mark question is
clamped into the interval. -/
theorem c2_witness :
    0 ≤ (gradeOne 10 "my answer"
        (CallResult.ok "\x7b\"marks\": 15, \"feedback\": \"Good\"\x7d")).marks ∧
      (gradeOne 10 "my answer"
        (CallResult.ok "\x7b\"marks\": 15, \"feedback\": \"Good\"\x7d")).marks ≤ 10 :=
  c2_grading_clamp 10 "my answer"
    (CallResult.ok "\x7b\"marks\": 15, \"feedback\": \"Good\"\x7d") (by norm_num)

/-- Claim C3 (code bug in the incremental scan): on a response holding two
complete objects and a truncated third, the scan returns only the first
record, though the second is itself complete and valid — the buffer keeps the
separator comma after a success and only trailing commas are stripped, so the
parse of every later complete object fails.  Both scan variants lose the
second record. -/
theorem c3_scan_drops_records :
    parsePartialObjects "[\x7b\"a\":1\x7d,\x7b\"b\":2\x7d,\x7b\"c" =
      [.jobj [("a", .jnum 1)]] ∧
    jsonLoads "\x7b\"b\":2\x7d" = some (.jobj [("b", .jnum 2)]) ∧
    partialObjectsGen "[\x7b\"a\":1\x7d,\x7b\"b\":2\x7d,\x7b\"c" =
      [.jobj [("a", .jnum 1)]] := ⟨rfl, rfl, rfl⟩

/-- Claim C4, amended (continuation trigger and budget): when the first
response yields a NONEMPTY recovery short of the expected count, a single
attempt issues exactly one continuation request, whose budget is the larger of
the leftover marks and the leftover record count.  (The frozen claim also
covers an empty recovery; the counterexample shows no continuation is issued
then.) -/
theorem c4_continuation_budget (oracle : Nat → CallResult) (N : Nat) (tm : Int)
    (raw : String) (recov : List JVal)
    (h0 : oracle 0 = CallResult.ok raw)
    (h1 : tryParse raw = none)
    (h2 : jsonLoads (repairJsonCandidate raw) = none)
    (h3 : parsePartialObjects raw = recov)
    (h4 : recov.isEmpty = false)
    (h5 : recov.length < N) :
    (call_gemini_api oracle N tm 0).contReqs =
      [(N - recov.length,
        max (tm - usedMarks recov) ((N - recov.length : Nat) : Int))] := by
  subst h3
  have hmain := partialRecoveryStep_conts oracle N tm raw 0 [] h4 h5
  unfold call_gemini_api
  simp only [callGeminiGo]
  rw [h0]
  dsimp only
  rw [h1]
  dsimp only
  rw [h2]
  dsimp only
  cases hprs : partialRecoveryStep oracle N tm raw 0 [] with
  | inl out =>
    rw [hprs] at hmain
    dsimp only at hmain
    dsimp only
    simpa using hmain
  | inr p =>
    obtain ⟨idx2, conts2⟩ := p
    rw [hprs] at hmain
    dsimp only at hmain
    dsimp only
    simpa using hmain

/-- Counterexample to C4 as frozen: a first response from which the scan
recovers ZERO records (fewer than the expected five) triggers no continuation
request at all — the recovery block fires only on a nonempty scan result, so
the run ends with no continuation requests recorded. -/
theorem c4_zero_records_counterexample :
    parsePartialObjects "garbage" = [] ∧
      call_gemini_api (fun _ => CallResult.ok "garbage") 5 100 1 =
        ⟨none, 2, [], none⟩ := ⟨rfl, rfl⟩

/-- Witness for C4: one record of three marks recovered out of two expected
with a ten-mark budget — the continuation asks one record with max(10−3,1)=7
marks. -/
theorem c4_witness :
    (call_gemini_api
        (fun i => if i = 0 then CallResult.ok "[\x7b\"q\":\"a\",\"marks\":3\x7d,\x7b\"y"
          else CallResult.err "late") 2 10 0).contReqs = [(1, 7)] :=
  c4_continuation_budget
    (fun i => if i = 0 then CallResult.ok "[\x7b\"q\":\"a\",\"marks\":3\x7d,\x7b\"y"
      else CallResult.err "late")
    2 10
    "[\x7b\"q\":\"a\",\"marks\":3\x7d,\x7b\"y"
    [JVal.jobj [("q", .jstr "a"), ("marks", .jnum 3)]]
    rfl rfl rfl rfl rfl (by decide)

/-- Claim C5 (strategy-2 round trip): the bracket-bounded direct parse of the
serialization of any array of safe record objects returns exactly those
records, unchanged and in order. -/
theorem c5_strategy2_roundtrip (xs : List JVal) (hs : safeArr xs = true)
    (ho : xs.all isObjB = true) :
    tryParse (String.mk (serV (.jarr xs))) = some xs :=
  tryParse_serV xs hs ho

/-- Witness for C5: a one-record array round-trips through the direct parse. -/
theorem c5_witness :
    tryParse (String.mk (serV (.jarr [.jobj [("a", .jnum 1)]]))) =
      some [.jobj [("a", .jnum 1)]] :=
  c5_strategy2_roundtrip [.jobj [("a", .jnum 1)]] rfl rfl

/-- Claim C6 (quote and trailing-comma repair): the single-quoted rendering of
an array of safe records containing a string token (optionally with a trailing
comma before the closing bracket) is repaired — quotes replaced, trailing
comma stripped — and then parses to exactly the same records as the
double-quoted equivalent input. -/
theorem c6_quote_repair (xs : List JVal) (tc : Bool) (hs : safeArr xs = true)
    (hstr : hasStrArr xs = true) :
    jsonLoads (repairJsonCandidate (String.mk
        ('[' :: serSQElems xs ++ (if tc then [',', ']'] else [']'])))) =
      some (.jarr xs) ∧
    jsonLoads (String.mk (serV (.jarr xs))) = some (.jarr xs) := by
  rw [repair_sq xs tc hs hstr]
  exact ⟨jsonLoads_serV (safeV_jarr_of_arr hs), jsonLoads_serV (safeV_jarr_of_arr hs)⟩

/-- Witness for C6: a single-quoted one-record array with a trailing comma is
repaired and parses to the same record as its double-quoted form. -/
theorem c6_witness :
    jsonLoads (repairJsonCandidate (String.mk
        ('[' :: serSQElems [.jobj [("q", .jstr "hi")]] ++ [',', ']']))) =
      some (.jarr [.jobj [("q", .jstr "hi")]]) ∧
    jsonLoads (String.mk (serV (.jarr [.jobj [("q", .jstr "hi")]]))) =
      some (.jarr [.jobj [("q", .jstr "hi")]]) :=
  c6_quote_repair [.jobj [("q", .jstr "hi")]] true rfl rfl

/-- Claim C7, amended (bare-object acceptance): a single bare object is
REJECTED by strategy 2 (the direct parse finds no bracket-bounded array), and
it is the repair strategy that accepts it, wrapping it into a one-element
array that then parses to exactly that record. -/
theorem c7_bare_object_wrap (fs : List (String × JVal))
    (hv : safeV (.jobj fs) = true) (hf : flatFlds fs = true) :
    jsonLoads (repairJsonCandidate (String.mk (serV (.jobj fs)))) =
      some (.jarr [.jobj fs]) := by
  rw [repair_bareObj fs hv hf]
  exact jsonLoads_serV (safeV_jarr_of_arr (by simp [safeArr, hv]))

/-- Counterexample to C7 as frozen: the direct-parse strategy itself returns
no result on a bare object. -/
theorem c7_counterexample : tryParse "\x7b\"a\": 1\x7d" = none := rfl

/-- Witness for C7: the repair of a bare one-field object parses to the
one-element array holding it. -/
theorem c7_witness :
    jsonLoads (repairJsonCandidate (String.mk (serV (.jobj [("a", .jnum 1)])))) =
      some (.jarr [.jobj [("a", .jnum 1)]]) :=
  c7_bare_object_wrap [("a", .jnum 1)] rfl rfl

/-- Claim C8 (transport-failure abort): a transport error at any attempt ends
the loop at once — one more call made, no further retries whatever fuel
remains, a None result, and the message surfaced; in particular a first-call
error gives that outcome for every retry budget. -/
theorem c8_transport_abort (oracle : Nat → CallResult) (expected : Nat)
    (totalMarks : Int) (fuel idx : Nat) (conts : List (Nat × Int)) (e : String)
    (h : oracle idx = CallResult.err e) :
    callGeminiGo oracle expected totalMarks (fuel + 1) idx conts =
        ⟨none, idx + 1, conts, some e⟩ ∧
      (idx = 0 →
        call_gemini_api oracle expected totalMarks fuel = ⟨none, 1, [], some e⟩) := by
  constructor
  · simp only [callGeminiGo]
    rw [h]
  · intro hidx
    subst hidx
    unfold call_gemini_api
    simp only [callGeminiGo]
    rw [h]

/-- Witness for C8: a failing transport with three retries of budget left
still stops after the first call. -/
theorem c8_witness :
    callGeminiGo (fun _ => CallResult.err "boom") 2 10 4 0 [] =
        ⟨none, 1, [], some "boom"⟩ ∧
      (0 = 0 →
        call_gemini_api (fun _ => CallResult.err "boom") 2 10 3 =
          ⟨none, 1, [], some "boom"⟩) :=
  c8_transport_abort (fun _ => CallResult.err "boom") 2 10 3 0 [] "boom" rfl

/-- Claim C9 (extractor totality): on every input, both scan variants return a
list of record objects and the direct parse returns nothing or a list of
record objects — every failure is a value, none is an exception. -/
theorem c9_extractor_totality (raw : String) :
    (parsePartialObjects raw).all isObjB = true ∧
    (partialObjectsGen raw).all isObjB = true ∧
    ((tryParse raw).getD []).all isObjB = true :=
  ⟨parsePartialObjects_all raw, partialObjectsGen_all raw, tryParse_sound raw⟩

/-- Claim C10 (no-answer fast path): an empty or whitespace-only student
answer is scored zero with the fixed feedback and no model call, whatever the
model would have answered. -/
theorem c10_no_answer_fast_path (maxMarks : ℚ) (ans : String) (call : CallResult)
    (h : ans.data.all isPyWs = true) :
    gradeOne maxMarks ans call = ⟨0, .jstr "No answer provided.", false⟩ := by
  unfold gradeOne
  rw [if_pos (pyStrip_nil_of_ws h)]

/-- Witness for C10: a whitespace-only answer on a five-mark question is
scored zero with no model call, even though the transport would have failed. -/
theorem c10_witness :
    gradeOne 5 " \t " (CallResult.err "network down") =
      ⟨0, .jstr "No answer provided.", false⟩ :=
  c10_no_answer_fast_path 5 " \t " (CallResult.err "network down") rfl

end Syllabus
